import Mathlib

/-! # WAV ingestion and word segmentation (`src/audio/WavData.cpp`)

A shallow embedding of `wtm::audio::WavData`: header validation, sample
decoding, framing, word segmentation and the word writer, followed by the
properties established for them.

Conventions of the embedding.

* Unsigned header fields and indices are natural numbers; signed sample
  values are integers, narrowed explicitly where the source narrows them. The
  product `bytesPerSec * FRAME_LENGTH`, which the source forms in 32-bit
  unsigned arithmetic, is reduced modulo `2 ^ 32`.
* A run of the program that does not return normally (an `exit`, a failed
  `assert`, an integer division by zero, a throwing `vector::at`) is an
  `Except.error` carrying an `Abort`.
* A loop whose termination is not evident from its shape takes a fuel
  argument; `none` means the fuel ran out.
* `double` quantities are exact rationals.
-/

namespace wtm.audio

/-! ## Ways in which a run stops without returning -/

/-- Reasons for which a call does not return normally. -/
inductive Abort where
  /-- `exit`: "Invalid RIFF/WAVE format". -/
  | invalidRiffWave
  /-- `exit`: "only PCM audio format is supported". -/
  | notPCM
  /-- `exit`: "only 1 or 2 channels audio is supported". -/
  | badChannels
  /-- `exit`: "only 8 and 16-bit per channel is supported". -/
  | badBitsPerChannel
  /-- `exit`: "File too big". -/
  | fileTooBig
  /-- An integer division whose divisor is zero. -/
  | divisionByZero
  /-- A failed `assert`. -/
  | assertion
  /-- An access outside the bounds of a vector or array. -/
  | outOfRange
deriving DecidableEq, Repr

/-- Unsigned integer division `a / b` of the source; a zero divisor stops the run. -/
def udiv (a b : Nat) : Except Abort Nat :=
  if b = 0 then .error .divisionByZero else .ok (a / b)

/-! ## The container header -/

/-- A `char[4]` field of the header. -/
structure Tag where
  b0 : Nat
  b1 : Nat
  b2 : Nat
  b3 : Nat
deriving DecidableEq, Repr

/-- The four characters of a tag, in memory order. -/
def Tag.bytes (t : Tag) : List Nat := [t.b0, t.b1, t.b2, t.b3]

/-- Modelled from the spec: the `WavHeader` struct (declared in `WavData.h`),
with the fields of the container layout: tags, chunk sizes, audio format,
channel count, sample rate, byte rate, block align, bits per sample and the
size of the data chunk. -/
structure WavHeader where
  riff : Tag
  chunkSize : Nat
  wave : Tag
  fmt : Tag
  subchunk1Size : Nat
  audioFormat : Nat
  numOfChan : Nat
  samplesPerSec : Nat
  bytesPerSec : Nat
  blockAlign : Nat
  bitsPerSample : Nat
  data : Tag
  subchunk2Size : Nat
deriving DecidableEq, Repr

/-- The string literal `"RIFF"` with its terminator. -/
def litRIFF : List Nat := [82, 73, 70, 70, 0]

/-- The string literal `"WAVE"` with its terminator. -/
def litWAVE : List Nat := [87, 65, 86, 69, 0]

/-- The C library `strncmp(s1, s2, n)`: at most `n` characters are compared and
the comparison stops after a NUL; the result is zero exactly when no difference
was found. -/
def strncmp : List Nat → List Nat → Nat → Int
  | _, _, 0 => 0
  | s1, s2, n + 1 =>
    let c1 := s1.headD 0
    let c2 := s2.headD 0
    if c1 ≠ c2 then (c1 : Int) - (c2 : Int)
    else if c1 = 0 then 0
    else strncmp s1.tail s2.tail n

/-- `WavData::checkHeader`; `LONG_MAX` is the platform constant of `<limits.h>`. -/
def checkHeader (LONG_MAX : Nat) (wavHeader : WavHeader) : Except Abort Unit :=
  if 0 ≠ strncmp wavHeader.riff.bytes litRIFF 4
      ∨ 0 ≠ strncmp wavHeader.wave.bytes litWAVE 4 then
    .error .invalidRiffWave
  else if 1 ≠ wavHeader.audioFormat then
    .error .notPCM
  else if wavHeader.numOfChan > 2 then
    .error .badChannels
  else
    (udiv wavHeader.bitsPerSample wavHeader.numOfChan).bind fun bitsPerChannel =>
      if 8 ≠ bitsPerChannel ∧ 16 ≠ bitsPerChannel then
        .error .badBitsPerChannel
      else if wavHeader.subchunk2Size > LONG_MAX then
        .error .fileTooBig
      else
        .ok ()

/-- The tag `RIFF`. -/
def tagRIFF : Tag := ⟨82, 73, 70, 70⟩

/-- The tag `WAVE`. -/
def tagWAVE : Tag := ⟨87, 65, 86, 69⟩

/-! ## Constants and types of `audio.h` -/

/-- Modelled from the spec: `FRAME_LENGTH` (declared in `audio.h`), the length of
a frame in milliseconds, 25. -/
def FRAME_LENGTH : Nat := 25

/-- Modelled from the spec: `FRAME_OVERLAP` (declared in `audio.h`), the fraction
by which consecutive frames overlap, 0.5. -/
def FRAME_OVERLAP : ℚ := 1 / 2

/-- Modelled from the spec: `MOVING_AVERAGE_SIZE` (declared in `audio.h`), the
even width of the smoothing window, 10. -/
def MOVING_AVERAGE_SIZE : Nat := 10

/-- Modelled from the spec: `sizeof(raw_t)`, the byte width of the sample type
`raw_t` (declared in `audio.h`). The decoder stores its 8-bit and 16-bit units
in a `raw_t` as they are and the writer emits `raw_t` values as the samples of
a PCM file; `raw_t` is taken to be `int16_t`, two bytes wide. -/
def sizeof_raw_t : Nat := 2

/-- The conversion of an `int` to a signed integer type of `bits` bits: values in
range are kept, others wrap around. -/
def narrow (bits : Nat) (v : Int) : Int :=
  (v + 2 ^ (bits - 1)) % 2 ^ bits - 2 ^ (bits - 1)

/-- The conversion `static_cast<raw_t>(v)` of an `int` to the sample type. -/
def toRaw (v : Int) : Int := narrow (8 * sizeof_raw_t) v

/-! ## The input stream -/

/-- State of the `std::fstream` being read: the bytes not yet extracted and the
`eofbit` and `failbit` flags. -/
structure Stream where
  bytes : List Nat
  eof : Bool
  fail : Bool
deriving DecidableEq, Repr

/-- The call `fs.read(buf, n)`, where `buf` holds the current bytes of the
destination object. A stream that is not good extracts nothing and leaves the
object as it was; a stream holding fewer than `n` bytes stores the bytes it has
and sets `eofbit` and `failbit`. -/
def Stream.read (fs : Stream) (buf : List Nat) (n : Nat) : List Nat × Stream :=
  if fs.eof ∨ fs.fail then
    (buf, { fs with fail := true })
  else if n ≤ fs.bytes.length then
    (fs.bytes.take n, { fs with bytes := fs.bytes.drop n })
  else
    (fs.bytes ++ buf.drop fs.bytes.length, { bytes := [], eof := true, fail := true })

/-- The unsigned value of an object given by its bytes, least significant first. -/
def leValue : List Nat → Nat
  | [] => 0
  | b :: bs => b + 256 * leValue bs

/-- The value of a `uint8_t` object. -/
def asUInt8 (buf : List Nat) : Int := ((leValue buf % 256 : Nat) : Int)

/-- The value of an `int16_t` object (two's complement). -/
def asInt16 (buf : List Nat) : Int :=
  if leValue buf % 65536 < 32768 then ((leValue buf % 65536 : Nat) : Int)
  else ((leValue buf % 65536 : Nat) : Int) - 65536

/-- The stereo downmix expression `static_cast<raw_t>((abs(left) + abs(right)) / 2)`,
evaluated in `int`, for the 8-bit and for the 16-bit path. -/
def downmix (left right : Int) : Int :=
  toRaw (((left.natAbs + right.natAbs) / 2 : Nat) : Int)

/-! ## The document -/

/-- Modelled from the spec: the `Frame` class (declared in `Frame.h`), a view
`[start, end)` over the shared sample sequence together with the moving-average
RMS assigned by the segmenter, which is zero until assigned. -/
structure Frame where
  start : Nat
  stop : Nat
  maRms : ℚ := 0
deriving DecidableEq, Repr

/-- Modelled from the spec: the `Word` class (declared in `Word.h`), an ordered
sequence of frames. -/
structure Word where
  frames : List Frame
deriving DecidableEq, Repr

/-- Modelled from the spec: the data members of `WavData` (declared in
`WavData.h`): the header, the sample sequence, its extreme values and length,
the frame length in samples, the frame list and the word list. -/
structure WavData where
  header : WavHeader
  rawData : List Int := []
  minVal : Int := 0
  maxVal : Int := 0
  numberOfSamples : Nat := 0
  samplesPerFrame : Nat := 0
  frames : List Frame := []
  words : List Word := []
deriving DecidableEq, Repr

/-! ## The sample decoder -/

/-- The local objects of `readRawData` that `fs.read` fills, as bytes. -/
structure Locals where
  value8 : List Nat
  valueLeft8 : List Nat
  valueRight8 : List Nat
  value16 : List Nat
  valueLeft16 : List Nat
  valueRight16 : List Nat
deriving DecidableEq, Repr

/-- State of the decoding loop of `readRawData`. -/
structure Decode where
  fs : Stream
  loc : Locals
  minValue : Int
  maxValue : Int
  rawData : List Int
  sampleNumber : Nat
deriving DecidableEq, Repr

/-- State on entry to the decoding loop: `minValue = 0`, `maxValue = 0`,
`sampleNumber = 0`. -/
def Decode.entry (fs : Stream) (loc : Locals) (rawData : List Int) : Decode :=
  { fs := fs, loc := loc, minValue := 0, maxValue := 0, rawData := rawData, sampleNumber := 0 }

/-- The tail of an iteration of the decoding loop: update the extreme values and
append the sample. -/
def Decode.push (s : Decode) (fs : Stream) (loc : Locals) (value : Int) : Decode :=
  { fs := fs
    loc := loc
    maxValue := if s.maxValue < value then value else s.maxValue
    minValue := if s.minValue > value then value else s.minValue
    rawData := s.rawData ++ [value]
    sampleNumber := s.sampleNumber + 1 }

/-- One iteration of the decoding loop of `readRawData`. -/
def decodeStep (wavHeader : WavHeader) (s : Decode) : Decode :=
  if 8 = wavHeader.bitsPerSample then
    if 1 = wavHeader.numOfChan then
      let r := s.fs.read s.loc.value8 1
      s.push r.2 { s.loc with value8 := r.1 } (toRaw (asUInt8 r.1))
    else
      let l := s.fs.read s.loc.valueLeft8 1
      let r := l.2.read s.loc.valueRight8 1
      s.push r.2 { s.loc with valueLeft8 := l.1, valueRight8 := r.1 }
        (downmix (asUInt8 l.1) (asUInt8 r.1))
  else
    if 1 = wavHeader.numOfChan then
      let r := s.fs.read s.loc.value16 2
      s.push r.2 { s.loc with value16 := r.1 } (toRaw (asInt16 r.1))
    else
      let l := s.fs.read s.loc.valueLeft16 2
      let r := l.2.read s.loc.valueRight16 2
      s.push r.2 { s.loc with valueLeft16 := l.1, valueRight16 := r.1 }
        (downmix (asInt16 l.1) (asInt16 r.1))

/-- The decoding loop `for (; sampleNumber < n && !fs.eof(); sampleNumber++)`,
with `k` the number of iterations `n - sampleNumber` still allowed by the count. -/
def decodeLoop (wavHeader : WavHeader) : Nat → Decode → Decode
  | 0, s => s
  | k + 1, s => if s.fs.eof then s else decodeLoop wavHeader k (decodeStep wavHeader s)

/-- `WavData::readRawData`, on the stream `fs`, with `loc` the initial contents of
its uninitialised locals. The document is returned in the state the call left it
in, together with the way the call ended. The product
`wavHeader.bytesPerSec * FRAME_LENGTH` of the 4-byte byte rate and the frame
length is formed in 32-bit unsigned arithmetic and wraps modulo `2 ^ 32` before
it is divided by `1000.0`. -/
def readRawData (fs : Stream) (wavHeader : WavHeader) (wavFile : WavData) (loc : Locals) :
    Except Abort Unit × WavData :=
  let bytesPerSample := wavHeader.bitsPerSample / 8
  match udiv wavHeader.subchunk2Size (wavHeader.numOfChan * bytesPerSample) with
  | .error e => (.error e, wavFile)
  | .ok numberOfSamplesXChannels =>
    let s := decodeLoop wavHeader numberOfSamplesXChannels (Decode.entry fs loc wavFile.rawData)
    let wavFile := { wavFile with rawData := s.rawData }
    if ¬ s.sampleNumber > 0 then (.error .assertion, wavFile)
    else
      let wavFile := { wavFile with
        minVal := s.minValue, maxVal := s.maxValue, numberOfSamples := s.sampleNumber }
      let bytesPerFrame := (wavHeader.bytesPerSec * FRAME_LENGTH) % 2 ^ 32 / 1000
      -- `bytesPerSample` is not zero here: it is a factor of the divisor above
      let wavFile := { wavFile with samplesPerFrame := bytesPerFrame / bytesPerSample }
      if ¬ wavFile.samplesPerFrame > 0 then (.error .assertion, wavFile)
      else (.ok (), wavFile)

/-! ## The frame builder -/

/-- The hop `static_cast<unsigned int>(samplesPerFrame * (1 - FRAME_OVERLAP))`: the
number of samples by which consecutive frames advance. -/
def samplesPerNonOverlap (samplesPerFrame : Nat) : Nat :=
  ⌊(samplesPerFrame : ℚ) * (1 - FRAME_OVERLAP)⌋₊

/-- The loop of `divideIntoFrames` over `i < framesCount`, with `k` the number of
values of `i` still to visit and `size` the length of the sample sequence; it
leaves at the first frame that does not end before `size`. -/
def framesLoop (samplesPerFrame samplesPerNonOverlap size : Nat) :
    Nat → Nat → List Frame → List Frame
  | 0, _, frames => frames
  | k + 1, i, frames =>
    let indexBegin := i * samplesPerNonOverlap
    let indexEnd := indexBegin + samplesPerFrame
    if indexEnd < size then
      framesLoop samplesPerFrame samplesPerNonOverlap size k (i + 1)
        (frames ++ [{ start := indexBegin, stop := indexEnd }])
    else
      frames

/-- `WavData::divideIntoFrames`. -/
def divideIntoFrames (doc : WavData) : Except Abort Unit × WavData :=
  if ¬ doc.header.subchunk2Size > 0 then (.error .assertion, doc)
  else
    match udiv doc.header.subchunk2Size (doc.header.bitsPerSample / 8) with
    | .error e => (.error e, doc)
    | .ok samples =>
      match udiv samples (samplesPerNonOverlap doc.samplesPerFrame) with
      | .error e => (.error e, doc)
      | .ok framesCount =>
        (.ok (), { doc with
          frames := framesLoop doc.samplesPerFrame (samplesPerNonOverlap doc.samplesPerFrame)
            doc.rawData.length framesCount 0 doc.frames })

/-! ## The word segmenter -/

/-- The half width `unsigned short maShift = MOVING_AVERAGE_SIZE / 2` of the
smoothing window. -/
def maShift : Nat := MOVING_AVERAGE_SIZE / 2

/-- The window loop
`for (unsigned short iMa = i - maShift; iMa <= i + maShift; iMa++) ma += rms`
of `divideIntoWords`, where `rms` is `frames->at(i)->calcRMS()` and `bound` is
`i + maShift`. The counter is a 16-bit unsigned integer, so its increment is
taken modulo `2 ^ 16`; `none` when the fuel does not suffice. -/
def maWindowLoop (rms : ℚ) (bound : Nat) : Nat → Nat → ℚ → Option ℚ
  | 0, _, _ => none
  | fuel + 1, iMa, ma =>
    if iMa ≤ bound then maWindowLoop rms bound fuel ((iMa + 1) % 2 ^ 16) (ma + rms)
    else some ma

/-- State of the smoothing pass of `divideIntoWords`. -/
structure Smooth where
  frames : List Frame
  maMin : ℚ
  maMax : ℚ
  maAvg : ℚ
deriving DecidableEq, Repr

/-- The body of the smoothing loop of `divideIntoWords` for the frame index `i`.
The parameter `calcRMS` stands for `Frame::calcRMS` (defined in `Frame.cpp`)
as a function of the window `[start, end)` of the frame over the sample
sequence of the document; `fuel` bounds the iterations of the window loop. -/
def smoothStep (calcRMS : Nat → Nat → ℚ) (fuel i : Nat) (s : Smooth) :
    Option (Except Abort Unit × Smooth) :=
  match s.frames[i]? with
  | none => some (.error .outOfRange, s)
  | some frame =>
    match maWindowLoop (calcRMS frame.start frame.stop) (i + maShift) fuel
        ((i - maShift) % 2 ^ 16) 0 with
    | none => none
    | some sum =>
      let ma := sum / (MOVING_AVERAGE_SIZE : ℚ)
      some (.ok (),
        { frames := s.frames.set i { frame with maRms := ma }
          maMin := if s.maMin > ma then ma else s.maMin
          maMax := if s.maMax < ma then ma else s.maMax
          maAvg := (s.maAvg + ma) / 2 })

/-- The smoothing loop `for (i = maShift; i < frames->size() - maShift; ++i)`, with
`k` the number of values of `i` still to visit. -/
def smoothLoop (calcRMS : Nat → Nat → ℚ) (fuel : Nat) :
    Nat → Nat → Smooth → Option (Except Abort Unit × Smooth)
  | 0, _, s => some (.ok (), s)
  | k + 1, i, s =>
    match smoothStep calcRMS fuel i s with
    | none => none
    | some (.error e, s') => some (.error e, s')
    | some (.ok (), s') => smoothLoop calcRMS fuel k (i + 1) s'

/-- The value `ma` that the smoothing pass assigns to a frame when the window loop
runs its `2 * maShift + 1` iterations: eleven times the RMS of that same frame,
divided by `MOVING_AVERAGE_SIZE`. -/
def smoothedValue (calcRMS : Nat → Nat → ℚ) (frame : Frame) : ℚ :=
  (0 + ((11 : Nat) : ℚ) * calcRMS frame.start frame.stop) / (MOVING_AVERAGE_SIZE : ℚ)

/-- The state of the smoothing pass after an iteration that assigns
`smoothedValue` to the frame at index `i`. -/
def smoothNext (calcRMS : Nat → Nat → ℚ) (i : Nat) (frame : Frame) (s : Smooth) : Smooth :=
  { frames := s.frames.set i { frame with maRms := smoothedValue calcRMS frame }
    maMin := if s.maMin > smoothedValue calcRMS frame then smoothedValue calcRMS frame
      else s.maMin
    maMax := if s.maMax < smoothedValue calcRMS frame then smoothedValue calcRMS frame
      else s.maMax
    maAvg := (s.maAvg + smoothedValue calcRMS frame) / 2 }

/-- The grouping scan of `divideIntoWords` over the frames still to visit, with
`wordFrames` the word in progress, if any. A word in progress at the end of the
scan is not appended. -/
def groupLoop (threshold : ℚ) : List Frame → Option (List Frame) → List Word → List Word
  | [], _, words => words
  | frame :: rest, wordFrames, words =>
    if frame.maRms > threshold then
      groupLoop threshold rest (some (wordFrames.getD [] ++ [frame])) words
    else
      match wordFrames with
      | some w => groupLoop threshold rest none (words ++ [{ frames := w }])
      | none => groupLoop threshold rest none words

/-- `WavData::divideIntoWords`; `none` when the fuel does not suffice for one of
the window loops. -/
def divideIntoWords (calcRMS : Nat → Nat → ℚ) (fuel : Nat) (doc : WavData) :
    Option (Except Abort Unit × WavData) :=
  if ¬ doc.frames.length > 10 then some (.error .assertion, doc)
  else
    match smoothLoop calcRMS fuel (doc.frames.length - maShift - maShift) maShift
        { frames := doc.frames, maMin := 0, maMax := 0, maAvg := 0 } with
    | none => none
    | some (.error e, s) => some (.error e, { doc with frames := s.frames })
    | some (.ok (), s) =>
      if s.maMax * (1 / 2) > s.maMin then
        let threshold := min (s.maMin * 5) (s.maAvg * (3 / 10))
        some (.ok (), { doc with
          frames := s.frames, words := groupLoop threshold s.frames none doc.words })
      else
        some (.ok (), { doc with
          frames := s.frames, words := doc.words ++ [{ frames := s.frames }] })

/-- `WavData::init`: `divideIntoFrames` followed by `divideIntoWords`. -/
def WavData.init (calcRMS : Nat → Nat → ℚ) (fuel : Nat) (doc : WavData) :
    Option (Except Abort Unit × WavData) :=
  match divideIntoFrames doc with
  | (.error e, doc') => some (.error e, doc')
  | (.ok (), doc') => divideIntoWords calcRMS fuel doc'

/-! ## The word writer -/

/-- Modelled from the spec: `sizeof(WavHeader)`, the size of the container header
laid out in the interface description, 44 bytes. -/
def sizeof_WavHeader : Nat := 44

/-- The C library `strncpy(dest, src, n)`: the `n` characters written to `dest`,
the source up to its first NUL and NULs from there on. -/
def strncpy : List Nat → Nat → List Nat
  | _, 0 => []
  | src, n + 1 =>
    if src.headD 0 = 0 then List.replicate (n + 1) 0
    else src.headD 0 :: strncpy src.tail n

/-- The `char[4]` field holding the given characters. -/
def Tag.ofBytes (l : List Nat) : Tag := ⟨l.getD 0 0, l.getD 1 0, l.getD 2 0, l.getD 3 0⟩

/-- The number of data bytes
`word.getFrames().size() * (1 - FRAME_OVERLAP) * sizeof(raw_t)`, converted to
`unsigned int`. -/
def waveSize (word : Word) : Nat :=
  ⌊(word.frames.length : ℚ) * (1 - FRAME_OVERLAP) * (sizeof_raw_t : ℚ)⌋₊

/-- The header `headerNew` that `saveToFile` writes. -/
def saveToFileHeader (doc : WavData) (word : Word) : WavHeader :=
  { riff := Tag.ofBytes (strncpy doc.header.riff.bytes 4)
    chunkSize := waveSize word + sizeof_WavHeader
    wave := Tag.ofBytes (strncpy doc.header.wave.bytes 4)
    fmt := Tag.ofBytes (strncpy doc.header.fmt.bytes 4)
    subchunk1Size := doc.header.subchunk1Size
    audioFormat := doc.header.audioFormat
    numOfChan := 1
    samplesPerSec := doc.header.samplesPerSec
    bytesPerSec := doc.header.samplesPerSec * sizeof_raw_t / 8
    blockAlign := sizeof_raw_t / 8
    bitsPerSample := sizeof_raw_t
    data := Tag.ofBytes (strncpy doc.header.data.bytes 4)
    subchunk2Size := waveSize word }

/-- The assignments `data[frameNumber * hop + i] = rawData->at(start + i)` that
the copying loops of `saveToFile` perform, in order, as pairs of the index
written and the index read. -/
def copyPlan (hop : Nat) : List Frame → Nat → List (Nat × Nat)
  | [], _ => []
  | frame :: rest, frameNumber =>
    (List.range hop).map (fun i => (frameNumber * hop + i, frame.start + i))
      ++ copyPlan hop rest (frameNumber + 1)

/-- The assignments of a plan carried out on the buffer `data`, whose elements are
`none` until written. A read outside the sample sequence throws, and a write
outside the buffer is undefined; both stop the run. -/
def runCopy (rawData : List Int) :
    List (Nat × Nat) → List (Option Int) → Except Abort (List (Option Int))
  | [], data => .ok data
  | (dst, src) :: rest, data =>
    match rawData[src]? with
    | none => .error .outOfRange
    | some v =>
      if dst < data.length then runCopy rawData rest (data.set dst (some v))
      else .error .outOfRange

/-- `WavData::saveToFile`: the header written to the file, and the buffer
`new raw_t[waveSize / sizeof(raw_t)]` after the copying loops. -/
def saveToFile (doc : WavData) (word : Word) : WavHeader × Except Abort (List (Option Int)) :=
  (saveToFileHeader doc word,
    runCopy doc.rawData (copyPlan (samplesPerNonOverlap doc.samplesPerFrame) word.frames 0)
      (List.replicate (waveSize word / sizeof_raw_t) none))

/-! ## The smoothing pass without fuel, and the spec's moving average -/

/-- The smoothing loop when each of its window loops runs its `2 * maShift + 1`
iterations: the frames of the `k` indices from `i` on receive `smoothedValue`
one after the other. -/
def smoothPass (calcRMS : Nat → Nat → ℚ) : Nat → Nat → Smooth → Smooth
  | 0, _, s => s
  | k + 1, i, s =>
    match s.frames[i]? with
    | none => s
    | some frame => smoothPass calcRMS k (i + 1) (smoothNext calcRMS i frame s)

/-- The RMS of the frame at index `j` of a frame list, 0 when there is no such
frame. -/
def rmsAt (calcRMS : Nat → Nat → ℚ) (frames : List Frame) (j : Nat) : ℚ :=
  match frames[j]? with
  | some frame => calcRMS frame.start frame.stop
  | none => 0

/-- The moving average as the spec words it: the arithmetic mean of the RMS values
of the frames with indices `i - maShift` through `i + maShift`. -/
def movingAverageSpec (calcRMS : Nat → Nat → ℚ) (frames : List Frame) (i : Nat) : ℚ :=
  ((List.range (2 * maShift + 1)).map (fun j => rmsAt calcRMS frames (i - maShift + j))).sum
    / ((2 * maShift + 1 : Nat) : ℚ)

/-! ## The words as the spec words them -/

/-- The maximal run of consecutive frames with smoothed energy above the threshold
that ends just before the index `b`; empty when the frame before `b` is at or
below the threshold, or when `b` is 0. -/
def runEndingAt (threshold : ℚ) (frames : List Frame) (b : Nat) : List Frame :=
  ((frames.take b).reverse.takeWhile (fun f => decide (f.maRms > threshold))).reverse

/-- The maximal runs of consecutive frames with smoothed energy above the
threshold that are immediately followed by a frame with smoothed energy at or
below the threshold, in order: one run for each index `b` of a frame at or
below the threshold that comes right after a frame above it. -/
def closedRuns (threshold : ℚ) (frames : List Frame) : List (List Frame) :=
  (List.range frames.length).filterMap (fun b =>
    match frames[b]? with
    | some frame =>
      if frame.maRms ≤ threshold ∧ runEndingAt threshold frames b ≠ [] then
        some (runEndingAt threshold frames b)
      else none
    | none => none)

/-! ## Concrete inputs -/

/-- The tag `fmt ` of the container. -/
def tagFmt : Tag := ⟨102, 109, 116, 32⟩

/-- The tag `data` of the container. -/
def tagData : Tag := ⟨100, 97, 116, 97⟩

/-- Value of `LONG_MAX` where `long` has 64 bits. -/
def LONG_MAX_64 : Nat := 2 ^ 63 - 1

/-- A PCM header with the given channel count, sample rate, bits per sample and
data size; byte rate and block align are derived from them. -/
def pcmHeader (numOfChan samplesPerSec bitsPerSample subchunk2Size : Nat) : WavHeader :=
  { riff := tagRIFF
    chunkSize := 36 + subchunk2Size
    wave := tagWAVE
    fmt := tagFmt
    subchunk1Size := 16
    audioFormat := 1
    numOfChan := numOfChan
    samplesPerSec := samplesPerSec
    bytesPerSec := samplesPerSec * numOfChan * (bitsPerSample / 8)
    blockAlign := numOfChan * (bitsPerSample / 8)
    bitsPerSample := bitsPerSample
    data := tagData
    subchunk2Size := subchunk2Size }

/-- A good stream holding the given bytes. -/
def streamOf (bytes : List Nat) : Stream := { bytes := bytes, eof := false, fail := false }

/-- Locals whose bytes are all zero. -/
def zeroLocals : Locals := ⟨[0], [0], [0], [0, 0], [0, 0], [0, 0]⟩

/-- A document freshly constructed from a header. -/
def newWavData (header : WavHeader) : WavData := { header := header }

/-- A decoded 16 kHz mono 16-bit document of 2800 samples, all equal to 10. -/
def loudDoc : WavData :=
  { header := pcmHeader 1 16000 16 5600
    rawData := List.replicate 2800 10
    minVal := 0
    maxVal := 10
    numberOfSamples := 2800
    samplesPerFrame := 400 }

/-- The RMS of a window of the samples of `loudDoc`: every sample is 10, and so is
the root mean square of any window. -/
def loudRMS : Nat → Nat → ℚ := fun _ _ => 10

/-- The word that `init` finds in `loudDoc`: its frames 5 and 6. -/
def loudWord : Word :=
  { frames := [{ start := 1000, stop := 1400, maRms := 11 },
               { start := 1200, stop := 1600, maRms := 11 }] }

/-- The document decoded from `n` all-zero samples of a 16 kHz mono 16-bit
recording. One second of silence is `silentDoc 16000`; `silentDoc 13108000`
is a little more than 819 seconds of silence. -/
def silentDoc (n : Nat) : WavData :=
  { header := pcmHeader 1 16000 16 (2 * n)
    rawData := List.replicate n 0
    minVal := 0
    maxVal := 0
    numberOfSamples := n
    samplesPerFrame := 400 }

/-- The frame `k` of a 16 kHz mono 16-bit document: 400 samples from `200 * k` on. -/
def frameAt (k : Nat) : Frame := { start := k * 200, stop := k * 200 + 400 }

/-- A 16-bit mono header declaring three samples at 16 kHz. -/
def threeSampleHeader : WavHeader := pcmHeader 1 16000 16 6

/-- A 16-bit mono header with a sample rate of 40 Hz, hence a byte rate of 80,
declaring two samples. -/
def lowRateHeader : WavHeader := pcmHeader 1 40 16 4

/-- The document that `readRawData` decodes from `lowRateHeader` and the samples 1
and 2: its frames are one sample long. -/
def lowRateDoc : WavData :=
  { header := lowRateHeader
    rawData := [1, 2]
    minVal := 0
    maxVal := 2
    numberOfSamples := 2
    samplesPerFrame := 1 }

/-- A decoded 16 kHz mono 16-bit document of 2800 samples: 1200 samples equal to 1
followed by 1600 samples equal to 7. -/
def stepDoc : WavData :=
  { header := pcmHeader 1 16000 16 5600
    rawData := List.replicate 1200 1 ++ List.replicate 1600 7
    minVal := 0
    maxVal := 7
    numberOfSamples := 2800
    samplesPerFrame := 400 }

/-- The RMS of the windows that are frames of `stepDoc`: a frame inside the first
1200 samples has RMS 1, a frame beyond them has RMS 7, and the frame
`[1000, 1400)`, half ones and half sevens, has mean square 25 and RMS 5. -/
def stepRMS (start stop : Nat) : ℚ :=
  if stop ≤ 1200 then 1 else if 1200 ≤ start then 7 else 5

/-- The document `silentDoc 13108000` after `divideIntoFrames`. -/
def longFramedDoc : WavData := (divideIntoFrames (silentDoc 13108000)).2

/-! ## Lemmas on the header validator -/

lemma strncmp_RIFF (t : Tag) : strncmp t.bytes litRIFF 4 = 0 ↔ t = tagRIFF := by
  obtain ⟨a, b, c, d⟩ := t
  simp only [Tag.bytes, litRIFF, strncmp, List.headD_cons, List.tail_cons, tagRIFF,
    Tag.mk.injEq]
  constructor
  · intro h
    split_ifs at h <;> omega
  · rintro ⟨rfl, rfl, rfl, rfl⟩
    simp

lemma strncmp_WAVE (t : Tag) : strncmp t.bytes litWAVE 4 = 0 ↔ t = tagWAVE := by
  obtain ⟨a, b, c, d⟩ := t
  simp only [Tag.bytes, litWAVE, strncmp, List.headD_cons, List.tail_cons, tagWAVE,
    Tag.mk.injEq]
  constructor
  · intro h
    split_ifs at h <;> omega
  · rintro ⟨rfl, rfl, rfl, rfl⟩
    simp

/-- The headers that `checkHeader` accepts. -/
lemma checkHeader_accepts (LONG_MAX : Nat) (h : WavHeader) :
    checkHeader LONG_MAX h = .ok () ↔
      h.riff = tagRIFF ∧ h.wave = tagWAVE ∧ h.audioFormat = 1 ∧
      (h.numOfChan = 1 ∨ h.numOfChan = 2) ∧
      (h.bitsPerSample / h.numOfChan = 8 ∨ h.bitsPerSample / h.numOfChan = 16) ∧
      h.subchunk2Size ≤ LONG_MAX := by
  have hR := strncmp_RIFF h.riff
  have hW := strncmp_WAVE h.wave
  unfold checkHeader udiv
  by_cases h5 : h.numOfChan = 0
  · simp only [h5, if_true, Except.bind]
    split_ifs <;> simp
  · simp only [h5, if_false, Except.bind]
    split_ifs with c1 c2 c3 c4 c5
    · have : ¬ (h.riff = tagRIFF ∧ h.wave = tagWAVE) := by
        rintro ⟨a, b⟩
        rcases c1 with c | c
        · exact c (hR.mpr a).symm
        · exact c (hW.mpr b).symm
      simp only [reduceCtorEq, false_iff]
      tauto
    · simp only [reduceCtorEq, false_iff]
      intro hh
      exact c2 hh.2.2.1.symm
    · simp only [reduceCtorEq, false_iff]
      intro hh
      omega
    · simp only [reduceCtorEq, false_iff]
      intro hh
      omega
    · simp only [reduceCtorEq, false_iff]
      intro hh
      omega
    · simp only [true_iff]
      push_neg at c1
      refine ⟨hR.mp c1.1.symm, hW.mp c1.2.symm, ?_, ?_, ?_, ?_⟩ <;> omega

/-- C1. `checkHeader` returns normally exactly when the tags are `RIFF` and
`WAVE`, the audio format is 1, the channel count is 1 or 2, the per-channel bit
depth `bitsPerSample / numOfChan` is 8 or 16 and `subchunk2Size` does not exceed
`LONG_MAX`. -/
theorem checkHeader_ok_iff (LONG_MAX : Nat) (h : WavHeader) :
    checkHeader LONG_MAX h = .ok () ↔
      h.riff = tagRIFF ∧ h.wave = tagWAVE ∧ h.audioFormat = 1 ∧
      (h.numOfChan = 1 ∨ h.numOfChan = 2) ∧
      (h.bitsPerSample / h.numOfChan = 8 ∨ h.bitsPerSample / h.numOfChan = 16) ∧
      h.subchunk2Size ≤ LONG_MAX :=
  checkHeader_accepts LONG_MAX h

/-! ## Lemmas on the sample decoder -/

lemma decodeStep_eq_push (hdr : WavHeader) (s : Decode) :
    ∃ fs loc v, decodeStep hdr s = s.push fs loc v := by
  unfold decodeStep
  split_ifs <;> exact ⟨_, _, _, rfl⟩

/-- Whatever the header and the stream, the decoding loop only appends samples, at
most as many as the count allows, and its extreme values bound each of them. -/
lemma decodeLoop_spec (hdr : WavHeader) (k : Nat) (s : Decode) :
    ∃ stored : List Int,
      (decodeLoop hdr k s).rawData = s.rawData ++ stored ∧
      stored.length ≤ k ∧
      (decodeLoop hdr k s).sampleNumber = s.sampleNumber + stored.length ∧
      (decodeLoop hdr k s).minValue ≤ s.minValue ∧
      s.maxValue ≤ (decodeLoop hdr k s).maxValue ∧
      ∀ v ∈ stored, (decodeLoop hdr k s).minValue ≤ v ∧ v ≤ (decodeLoop hdr k s).maxValue := by
  induction k generalizing s with
  | zero => exact ⟨[], by simp [decodeLoop]⟩
  | succ k ih =>
    unfold decodeLoop
    by_cases he : s.fs.eof = true
    · simp only [he, if_true]
      exact ⟨[], by simp⟩
    · simp only [he, Bool.false_eq_true, if_false]
      obtain ⟨fs, loc, v, hstep⟩ := decodeStep_eq_push hdr s
      rw [hstep]
      obtain ⟨stored, h1, h2, h3, h4, h5, h6⟩ := ih (s.push fs loc v)
      have hmin : (s.push fs loc v).minValue ≤ s.minValue ∧ (s.push fs loc v).minValue ≤ v := by
        simp only [Decode.push]
        split_ifs <;> constructor <;> omega
      have hmax : s.maxValue ≤ (s.push fs loc v).maxValue ∧ v ≤ (s.push fs loc v).maxValue := by
        simp only [Decode.push]
        split_ifs <;> constructor <;> omega
      refine ⟨v :: stored, ?_, ?_, ?_, ?_, ?_, ?_⟩
      · rw [h1]; simp [Decode.push]
      · simp; omega
      · rw [h3]; simp [Decode.push]; omega
      · omega
      · omega
      · intro w hw
        rcases List.mem_cons.mp hw with rfl | hw
        · constructor <;> omega
        · exact h6 w hw

/-- On a mono 16-bit header an iteration that finds two bytes in a good stream
consumes them and leaves the stream good. -/
lemma decodeStep_mono16_fs (hdr : WavHeader) (s : Decode)
    (hc : hdr.numOfChan = 1) (hb : hdr.bitsPerSample = 16)
    (he : s.fs.eof = false) (hf : s.fs.fail = false) (hl : 2 ≤ s.fs.bytes.length) :
    (decodeStep hdr s).fs.eof = false ∧ (decodeStep hdr s).fs.fail = false ∧
      (decodeStep hdr s).fs.bytes.length = s.fs.bytes.length - 2 ∧
      (decodeStep hdr s).rawData = s.rawData ++ [toRaw (asInt16 (s.fs.bytes.take 2))] := by
  simp [decodeStep, hc, hb, Stream.read, he, hf, hl, Decode.push]

/-- On a mono 16-bit header and a good stream holding `2 * k` bytes the decoding
loop runs all `k` iterations. -/
lemma decodeLoop_mono16_length (hdr : WavHeader) (hc : hdr.numOfChan = 1)
    (hb : hdr.bitsPerSample = 16) (k : Nat) (s : Decode)
    (he : s.fs.eof = false) (hf : s.fs.fail = false) (hl : 2 * k ≤ s.fs.bytes.length) :
    (decodeLoop hdr k s).rawData.length = s.rawData.length + k := by
  induction k generalizing s with
  | zero => simp [decodeLoop]
  | succ k ih =>
    unfold decodeLoop
    simp only [he, Bool.false_eq_true, if_false]
    obtain ⟨h1, h2, h3, h4⟩ := decodeStep_mono16_fs hdr s hc hb he hf (by omega)
    rw [ih (decodeStep hdr s) h1 h2 (by omega), h4]
    simp
    omega

/-- C2. For a validated mono 16-bit header and a good stream that holds all
`subchunk2Size` data bytes, `readRawData` appends exactly
`subchunk2Size / (bitsPerSample / 8)` samples to the sample sequence, each of
them lies between the recorded minimum and maximum, and the call returns
normally exactly when at least one sample was stored and the frame length in
samples, computed from the 32-bit product `bytesPerSec * FRAME_LENGTH`, is
positive. -/
theorem readRawData_mono16 (LONG_MAX : Nat) (fs : Stream) (hdr : WavHeader)
    (wavFile : WavData) (loc : Locals)
    (hv : checkHeader LONG_MAX hdr = .ok ())
    (hc : hdr.numOfChan = 1) (hb : hdr.bitsPerSample = 16)
    (he : fs.eof = false) (hf : fs.fail = false)
    (hl : hdr.subchunk2Size ≤ fs.bytes.length) :
    ∃ stored : List Int,
      (readRawData fs hdr wavFile loc).2.rawData = wavFile.rawData ++ stored ∧
      stored.length = hdr.subchunk2Size / (hdr.bitsPerSample / 8) ∧
      (∀ v ∈ stored, (readRawData fs hdr wavFile loc).2.minVal ≤ v ∧
        v ≤ (readRawData fs hdr wavFile loc).2.maxVal) ∧
      ((readRawData fs hdr wavFile loc).1 = .ok () ↔
        0 < stored.length ∧
          0 < (hdr.bytesPerSec * FRAME_LENGTH) % 2 ^ 32 / 1000 / (hdr.bitsPerSample / 8)) := by
  have _hvalid := hv
  obtain ⟨stored, h1, _, h3, _, _, h6⟩ :=
    decodeLoop_spec hdr (hdr.subchunk2Size / 2) (Decode.entry fs loc wavFile.rawData)
  have hlen := decodeLoop_mono16_length hdr hc hb (hdr.subchunk2Size / 2)
    (Decode.entry fs loc wavFile.rawData) he hf (by simp only [Decode.entry]; omega)
  have hstored : stored.length = hdr.subchunk2Size / 2 := by
    have := congrArg List.length h1
    rw [hlen, List.length_append] at this
    simp only [Decode.entry] at this
    omega
  have h3' : (decodeLoop hdr (hdr.subchunk2Size / 2)
      (Decode.entry fs loc wavFile.rawData)).sampleNumber = stored.length := by
    rw [h3]; simp [Decode.entry]
  have h1' : (decodeLoop hdr (hdr.subchunk2Size / 2)
      (Decode.entry fs loc wavFile.rawData)).rawData = wavFile.rawData ++ stored := by
    rw [h1]; simp [Decode.entry]
  have h16 : hdr.bitsPerSample / 8 = 2 := by rw [hb]
  refine ⟨stored, ?_, ?_, ?_, ?_⟩
  · by_cases hz : stored.length = 0 <;>
      by_cases h9 : (hdr.bytesPerSec * FRAME_LENGTH) % 4294967296 / 1000 / 2 = 0 <;>
      simp [readRawData, udiv, hc, h16, h3', h1', hz, h9]
  · rw [hstored, h16]
  · intro v hv'
    have hz : stored.length ≠ 0 := (List.length_pos_of_mem hv').ne'
    by_cases h9 : (hdr.bytesPerSec * FRAME_LENGTH) % 4294967296 / 1000 / 2 = 0 <;>
      simpa [readRawData, udiv, hc, h16, h3', h1', hz, h9] using h6 v hv'
  · by_cases hz : stored.length = 0 <;>
      by_cases h9 : (hdr.bytesPerSec * FRAME_LENGTH) % 4294967296 / 1000 / 2 = 0 <;>
      simp [readRawData, udiv, hc, h16, h3', h1', hz, h9, Nat.pos_iff_ne_zero]

/-- Witness of `readRawData_mono16`: a 16 kHz mono 16-bit header declaring six data
bytes, on a stream holding the samples 1, -1 and -32768. -/
theorem readRawData_mono16_witness :
    ∃ stored : List Int,
      (readRawData (streamOf [1, 0, 255, 255, 0, 128]) (pcmHeader 1 16000 16 6)
        (newWavData (pcmHeader 1 16000 16 6)) zeroLocals).2.rawData
          = (newWavData (pcmHeader 1 16000 16 6)).rawData ++ stored ∧
      stored.length = (pcmHeader 1 16000 16 6).subchunk2Size
          / ((pcmHeader 1 16000 16 6).bitsPerSample / 8) ∧
      (∀ v ∈ stored,
        (readRawData (streamOf [1, 0, 255, 255, 0, 128]) (pcmHeader 1 16000 16 6)
          (newWavData (pcmHeader 1 16000 16 6)) zeroLocals).2.minVal ≤ v ∧
        v ≤ (readRawData (streamOf [1, 0, 255, 255, 0, 128]) (pcmHeader 1 16000 16 6)
          (newWavData (pcmHeader 1 16000 16 6)) zeroLocals).2.maxVal) ∧
      ((readRawData (streamOf [1, 0, 255, 255, 0, 128]) (pcmHeader 1 16000 16 6)
          (newWavData (pcmHeader 1 16000 16 6)) zeroLocals).1 = .ok () ↔
        0 < stored.length ∧
          0 < ((pcmHeader 1 16000 16 6).bytesPerSec * FRAME_LENGTH) % 2 ^ 32 / 1000
            / ((pcmHeader 1 16000 16 6).bitsPerSample / 8)) :=
  readRawData_mono16 LONG_MAX_64 (streamOf [1, 0, 255, 255, 0, 128]) (pcmHeader 1 16000 16 6)
    (newWavData (pcmHeader 1 16000 16 6)) zeroLocals rfl rfl rfl rfl rfl (by decide)

/-! ## Lemmas on the stereo downmix -/

/-- The downmix does not depend on the order of the two channel values. -/
lemma downmix_comm (left right : Int) : downmix left right = downmix right left := by
  unfold downmix
  rw [Nat.add_comm]

/-- Narrowing to `raw_t` keeps a value of the 16-bit signed range. -/
lemma toRaw_of_fits (v : Int) (h1 : -32768 ≤ v) (h2 : v < 32768) : toRaw v = v := by
  unfold toRaw narrow sizeof_raw_t
  norm_num
  omega

/-- A signed type of 17 bits or more keeps every value that `(|L| + |R|) / 2` takes
on 16-bit channel values: the wraparound is that of a 16-bit sample type. -/
lemma narrow_of_wide (bits : Nat) (hbits : 17 ≤ bits) (v : Int) (h1 : 0 ≤ v) (h2 : v ≤ 32768) :
    narrow bits v = v := by
  obtain ⟨k, rfl⟩ : ∃ k, bits = k + 17 := ⟨bits - 17, by omega⟩
  have hp : (0 : Int) < 2 ^ k := by positivity
  have e1 : (2 : Int) ^ (k + 17 - 1) = 65536 * 2 ^ k := by
    have : k + 17 - 1 = k + 16 := by omega
    rw [this, pow_add]; norm_num; ring
  have e2 : (2 : Int) ^ (k + 17) = 131072 * 2 ^ k := by
    rw [pow_add]; norm_num; ring
  unfold narrow
  rw [e1, e2, Int.emod_eq_of_lt (by nlinarith) (by nlinarith)]
  ring

/-- The stored downmix is `(|left| + |right|) / 2` whenever that value fits `raw_t`. -/
lemma downmix_eq_of_fits (left right : Int) (h : (|left| + |right|) / 2 < 32768) :
    downmix left right = (|left| + |right|) / 2 := by
  have e : (((left.natAbs + right.natAbs) / 2 : Nat) : Int) = (|left| + |right|) / 2 := by
    push_cast
    rfl
  unfold downmix
  rw [e]
  apply toRaw_of_fits _ _ h
  have h1 := abs_nonneg left
  have h2 := abs_nonneg right
  omega

/-- The 8-bit path: two `uint8_t` channel values always fit. -/
lemma downmix_asUInt8 (l r : List Nat) :
    downmix (asUInt8 l) (asUInt8 r) = (|asUInt8 l| + |asUInt8 r|) / 2 := by
  apply downmix_eq_of_fits
  have h1 : |asUInt8 l| = asUInt8 l := abs_of_nonneg (by unfold asUInt8; omega)
  have h2 : |asUInt8 r| = asUInt8 r := abs_of_nonneg (by unfold asUInt8; omega)
  rw [h1, h2]
  unfold asUInt8
  omega

/-- The range of an `int16_t` object. -/
lemma asInt16_range (b : List Nat) : -32768 ≤ asInt16 b ∧ asInt16 b ≤ 32767 := by
  unfold asInt16
  split_ifs <;> omega

/-- The 16-bit path: the stored downmix is `(|left| + |right|) / 2` unless both
channel values are -32768. -/
lemma downmix_asInt16 (l r : List Nat) (h : ¬ (asInt16 l = -32768 ∧ asInt16 r = -32768)) :
    downmix (asInt16 l) (asInt16 r) = (|asInt16 l| + |asInt16 r|) / 2 := by
  apply downmix_eq_of_fits
  have hl := asInt16_range l
  have hr := asInt16_range r
  have al : |asInt16 l| ≤ 32768 := abs_le.mpr ⟨by omega, by omega⟩
  have ar : |asInt16 r| ≤ 32768 := abs_le.mpr ⟨by omega, by omega⟩
  by_contra hc
  have al' : |asInt16 l| = 32768 := by omega
  have ar' : |asInt16 r| = 32768 := by omega
  apply h
  constructor
  · rcases abs_eq (by norm_num : (0 : Int) ≤ 32768) |>.mp al' with e | e <;> omega
  · rcases abs_eq (by norm_num : (0 : Int) ≤ 32768) |>.mp ar' with e | e <;> omega

/-- C3. A 16-bit stereo header that passes `checkHeader`, on a stream whose one
sample-frame has both channel values equal to -32768: the sample stored is
-32768, while `(|L| + |R|) / 2` is 32768. -/
theorem downmix_overflow :
    checkHeader LONG_MAX_64 (pcmHeader 2 16000 16 4) = .ok () ∧
    asInt16 [0, 128] = -32768 ∧
    (readRawData (streamOf [0, 128, 0, 128]) (pcmHeader 2 16000 16 4)
      (newWavData (pcmHeader 2 16000 16 4)) zeroLocals).2.rawData = [-32768] ∧
    (|(-32768 : Int)| + |(-32768 : Int)|) / 2 = 32768 := by
  refine ⟨rfl, by decide, by decide, by norm_num⟩

/-! ## Lemmas on the frame builder -/

/-- With an overlap of one half the hop is half the frame length, rounded down. -/
lemma samplesPerNonOverlap_eq (n : Nat) : samplesPerNonOverlap n = n / 2 := by
  unfold samplesPerNonOverlap FRAME_OVERLAP
  have : (n : ℚ) * (1 - 1 / 2) = (n : ℚ) / ((2 : Nat) : ℚ) := by push_cast; ring
  rw [this, Nat.floor_div_eq_div]

/-- The frames appended by the loop are those of the indices `i, i + 1, ...` up
to the first one that does not end before `size`. -/
lemma framesLoop_spec (spf hop size : Nat) (k i : Nat) (frames : List Frame) :
    ∃ m, m ≤ k ∧
      framesLoop spf hop size k i frames =
        frames ++ (List.range m).map
          (fun j => ({ start := (i + j) * hop, stop := (i + j) * hop + spf } : Frame)) ∧
      ∀ j, j < m → (i + j) * hop + spf < size := by
  induction k generalizing i frames with
  | zero => exact ⟨0, le_refl _, by simp [framesLoop], by simp⟩
  | succ k ih =>
    unfold framesLoop
    by_cases h : i * hop + spf < size
    · simp only [h, if_true]
      obtain ⟨m, hm, he, hb⟩ := ih (i + 1) (frames ++ [{ start := i * hop, stop := i * hop + spf }])
      refine ⟨m + 1, by omega, ?_, ?_⟩
      · rw [he, List.range_succ_eq_map, List.map_cons, List.map_map, List.append_assoc]
        simp only [List.singleton_append, add_zero, List.append_cancel_left_eq, List.cons.injEq,
          true_and]
        apply List.map_congr_left
        intro j _
        simp only [Function.comp, Nat.succ_eq_add_one]
        have : i + 1 + j = i + (j + 1) := by omega
        rw [this]
      · intro j hj
        rcases j with _ | j
        · simpa using h
        · have := hb j (by omega)
          have e : i + 1 + j = i + (j + 1) := by omega
          rwa [e] at this
    · simp only [h, if_false]
      exact ⟨0, by omega, by simp, by simp⟩

/-- While `bound` stays below 65535 the 16-bit counter does not wrap: the window
loop runs the `n` iterations that separate `iMa` from `bound + 1` and adds `rms`
once per iteration. -/
lemma maWindowLoop_eq (rms : ℚ) (bound : Nat) (hb : bound < 65535) (n : Nat) :
    ∀ (fuel iMa : Nat) (ma : ℚ), iMa + n = bound + 1 → n < fuel →
      maWindowLoop rms bound fuel iMa ma = some (ma + (n : ℚ) * rms) := by
  induction n with
  | zero =>
    intro fuel iMa ma h hf
    obtain ⟨fuel, rfl⟩ : ∃ f, fuel = f + 1 := ⟨fuel - 1, by omega⟩
    have : ¬ iMa ≤ bound := by omega
    simp [maWindowLoop, this]
  | succ n ih =>
    intro fuel iMa ma h hf
    obtain ⟨fuel, rfl⟩ : ∃ f, fuel = f + 1 := ⟨fuel - 1, by omega⟩
    have h1 : iMa ≤ bound := by omega
    have h2 : (iMa + 1) % 2 ^ 16 = iMa + 1 := Nat.mod_eq_of_lt (by norm_num; omega)
    unfold maWindowLoop
    simp only [h1, if_true, h2]
    rw [ih fuel (iMa + 1) (ma + rms) (by omega) (by omega)]
    push_cast
    ring_nf

/-- Once `bound` reaches 65535 the test `iMa <= bound` holds for every value of the
16-bit counter: the window loop exhausts any fuel. -/
lemma maWindowLoop_none (rms : ℚ) (bound : Nat) (hb : 65535 ≤ bound) (fuel : Nat) :
    ∀ (iMa : Nat) (ma : ℚ), iMa < 2 ^ 16 → maWindowLoop rms bound fuel iMa ma = none := by
  induction fuel with
  | zero => intro iMa ma _; rfl
  | succ fuel ih =>
    intro iMa ma h
    have h1 : iMa ≤ bound := by norm_num at h; omega
    unfold maWindowLoop
    simp only [h1, if_true]
    exact ih _ _ (Nat.mod_lt _ (by norm_num))

/-- An iteration of the smoothing pass on an interior index below 65530. -/
lemma smoothStep_ok (calcRMS : Nat → Nat → ℚ) (fuel i : Nat) (s : Smooth) (frame : Frame)
    (hf : s.frames[i]? = some frame) (h1 : maShift ≤ i) (h2 : i + maShift < 65535)
    (hfuel : 12 ≤ fuel) :
    smoothStep calcRMS fuel i s = some (.ok (), smoothNext calcRMS i frame s) := by
  have hs : maShift = 5 := rfl
  have hm : (i - maShift) % 2 ^ 16 = i - maShift := Nat.mod_eq_of_lt (by norm_num; omega)
  unfold smoothStep
  simp only [hf, hm]
  rw [maWindowLoop_eq _ _ h2 11 fuel (i - maShift) 0 (by omega) (by omega)]
  rfl

/-- An iteration of the smoothing pass on an index from 65530 on never ends. -/
lemma smoothStep_none (calcRMS : Nat → Nat → ℚ) (fuel i : Nat) (s : Smooth)
    (hi : i < s.frames.length) (h2 : 65535 ≤ i + maShift) :
    smoothStep calcRMS fuel i s = none := by
  obtain ⟨frame, hf⟩ : ∃ f, s.frames[i]? = some f := ⟨s.frames[i], List.getElem?_eq_getElem hi⟩
  unfold smoothStep
  simp only [hf]
  rw [maWindowLoop_none _ _ h2 fuel _ _ (Nat.mod_lt _ (by norm_num))]

/-- An iteration of the smoothing pass on an index inside the frame list does not
abort, and it keeps the length of the frame list. -/
lemma smoothStep_inRange (calcRMS : Nat → Nat → ℚ) (fuel i : Nat) (s : Smooth)
    (hi : i < s.frames.length) :
    smoothStep calcRMS fuel i s = none ∨
      ∃ s', smoothStep calcRMS fuel i s = some (.ok (), s') ∧
        s'.frames.length = s.frames.length := by
  obtain ⟨frame, hf⟩ : ∃ f, s.frames[i]? = some f := ⟨s.frames[i], List.getElem?_eq_getElem hi⟩
  unfold smoothStep
  simp only [hf]
  cases maWindowLoop (calcRMS frame.start frame.stop) (i + maShift) fuel
    ((i - maShift) % 2 ^ 16) 0 with
  | none => exact Or.inl rfl
  | some sum => exact Or.inr ⟨_, rfl, by simp⟩

/-- The smoothing loop over indices inside the frame list does not abort. -/
lemma smoothLoop_inRange (calcRMS : Nat → Nat → ℚ) (fuel k : Nat) :
    ∀ (i : Nat) (s : Smooth), i + k ≤ s.frames.length →
      smoothLoop calcRMS fuel k i s = none ∨
        ∃ s', smoothLoop calcRMS fuel k i s = some (.ok (), s') ∧
          s'.frames.length = s.frames.length := by
  induction k with
  | zero => intro i s _; exact Or.inr ⟨s, rfl, rfl⟩
  | succ k ih =>
    intro i s h
    unfold smoothLoop
    rcases smoothStep_inRange calcRMS fuel i s (by omega) with h0 | ⟨s', h1, h2⟩
    · rw [h0]; exact Or.inl rfl
    · rw [h1]
      simp only
      rcases ih (i + 1) s' (by omega) with h3 | ⟨s'', h4, h5⟩
      · exact Or.inl h3
      · exact Or.inr ⟨s'', h4, by omega⟩

/-- The smoothing loop that has to visit the index 65530 exhausts any fuel. -/
lemma smoothLoop_none (calcRMS : Nat → Nat → ℚ) (fuel k : Nat) :
    ∀ (i : Nat) (s : Smooth), i + k ≤ s.frames.length → i ≤ 65530 → 65530 < i + k →
      smoothLoop calcRMS fuel k i s = none := by
  induction k with
  | zero => intro i s _ h1 h2; omega
  | succ k ih =>
    intro i s h h1 h2
    have hs : maShift = 5 := rfl
    unfold smoothLoop
    by_cases hi : i = 65530
    · rw [smoothStep_none calcRMS fuel i s (by omega) (by omega)]
    · rcases smoothStep_inRange calcRMS fuel i s (by omega) with h0 | ⟨s', h3, h4⟩
      · rw [h0]
      · rw [h3]
        exact ih (i + 1) s' (by omega) (by omega) (by omega)

/-- With enough fuel the smoothing loop over interior indices below 65530 ends
normally. -/
lemma smoothLoop_ok (calcRMS : Nat → Nat → ℚ) (fuel k : Nat) (hfuel : 12 ≤ fuel) :
    ∀ (i : Nat) (s : Smooth), i + k ≤ s.frames.length → maShift ≤ i → i + k ≤ 65530 →
      ∃ s', smoothLoop calcRMS fuel k i s = some (.ok (), s') ∧
        s'.frames.length = s.frames.length := by
  induction k with
  | zero => intro i s _ _ _; exact ⟨s, rfl, rfl⟩
  | succ k ih =>
    intro i s h h1 h2
    have hs : maShift = 5 := rfl
    obtain ⟨frame, hf⟩ : ∃ f, s.frames[i]? = some f :=
      ⟨s.frames[i], List.getElem?_eq_getElem (by omega)⟩
    unfold smoothLoop
    rw [smoothStep_ok calcRMS fuel i s frame hf h1 (by omega) hfuel]
    simp only
    have hlen : (smoothNext calcRMS i frame s).frames.length = s.frames.length := by
      simp [smoothNext]
    obtain ⟨s', h3, h4⟩ := ih (i + 1) (smoothNext calcRMS i frame s) (by omega) (by omega)
      (by omega)
    exact ⟨s', h3, by omega⟩

/-! ## Lemmas on the word segmenter -/

/-- With ten frames or fewer the assertion of `divideIntoWords` fails and the
document is left as it was. -/
lemma divideIntoWords_of_le (calcRMS : Nat → Nat → ℚ) (fuel : Nat) (doc : WavData)
    (h : doc.frames.length ≤ 10) :
    divideIntoWords calcRMS fuel doc = some (.error .assertion, doc) := by
  have : ¬ doc.frames.length > 10 := by omega
  simp [divideIntoWords, this]

/-- With more than ten frames `divideIntoWords` either exhausts the fuel or ends
normally. -/
lemma divideIntoWords_of_gt (calcRMS : Nat → Nat → ℚ) (fuel : Nat) (doc : WavData)
    (h : 10 < doc.frames.length) :
    divideIntoWords calcRMS fuel doc = none ∨
      ∃ d, divideIntoWords calcRMS fuel doc = some (.ok (), d) := by
  have hs : maShift = 5 := rfl
  have hgt : doc.frames.length > 10 := h
  unfold divideIntoWords
  simp only [hgt, not_true_eq_false, if_false]
  rcases smoothLoop_inRange calcRMS fuel (doc.frames.length - maShift - maShift) maShift
    { frames := doc.frames, maMin := 0, maMax := 0, maAvg := 0 } (by simp only; omega)
    with h0 | ⟨s', h1, _⟩
  · rw [h0]; exact Or.inl rfl
  · rw [h1]
    simp only
    split_ifs
    · exact Or.inr ⟨_, rfl⟩
    · exact Or.inr ⟨_, rfl⟩

/-- With more than ten and fewer than `2 ^ 16` frames, and fuel for the window
loops, `divideIntoWords` ends normally. -/
lemma divideIntoWords_returns (calcRMS : Nat → Nat → ℚ) (fuel : Nat) (doc : WavData)
    (h : 10 < doc.frames.length) (h16 : doc.frames.length < 2 ^ 16) (hfuel : 12 ≤ fuel) :
    ∃ d, divideIntoWords calcRMS fuel doc = some (.ok (), d) := by
  have hs : maShift = 5 := rfl
  have hgt : doc.frames.length > 10 := h
  norm_num at h16
  unfold divideIntoWords
  simp only [hgt, not_true_eq_false, if_false]
  obtain ⟨s', h1, _⟩ := smoothLoop_ok calcRMS fuel (doc.frames.length - maShift - maShift) hfuel
    maShift { frames := doc.frames, maMin := 0, maMax := 0, maAvg := 0 }
    (by simp only; omega) (le_refl _) (by omega)
  rw [h1]
  simp only
  split_ifs
  · exact ⟨_, rfl⟩
  · exact ⟨_, rfl⟩

/-- With `2 ^ 16` frames or more `divideIntoWords` exhausts any fuel: the window
loop of the frame index 65530 does not end. -/
lemma divideIntoWords_none (calcRMS : Nat → Nat → ℚ) (fuel : Nat) (doc : WavData)
    (h : 2 ^ 16 ≤ doc.frames.length) :
    divideIntoWords calcRMS fuel doc = none := by
  have hs : maShift = 5 := rfl
  norm_num at h
  have hgt : doc.frames.length > 10 := by omega
  unfold divideIntoWords
  simp only [hgt, not_true_eq_false, if_false]
  rw [smoothLoop_none calcRMS fuel (doc.frames.length - maShift - maShift) maShift
    { frames := doc.frames, maMin := 0, maMax := 0, maAvg := 0 }
    (by simp only; omega) (by omega) (by omega)]

/-- C9. `divideIntoWords` fails on its assertion, leaving the document without
word list and without smoothed values, exactly when the frame list has ten
frames or fewer; with more than ten frames it does not abort, and with fewer
than `2 ^ 16` frames and fuel for the window loops it ends normally. -/
theorem divideIntoWords_fails_iff (calcRMS : Nat → Nat → ℚ) (fuel : Nat) (doc : WavData) :
    (divideIntoWords calcRMS fuel doc = some (.error .assertion, doc) ↔
      doc.frames.length ≤ 10) ∧
    (10 < doc.frames.length →
      ∀ e d, divideIntoWords calcRMS fuel doc ≠ some (.error e, d)) ∧
    (10 < doc.frames.length → doc.frames.length < 2 ^ 16 → 12 ≤ fuel →
      ∃ d, divideIntoWords calcRMS fuel doc = some (.ok (), d)) := by
  have key : 10 < doc.frames.length →
      ∀ e d, divideIntoWords calcRMS fuel doc ≠ some (.error e, d) := by
    intro h e d he
    rcases divideIntoWords_of_gt calcRMS fuel doc h with h0 | ⟨d', h1⟩
    · rw [h0] at he; exact Option.noConfusion he
    · rw [h1] at he
      simp at he
  refine ⟨⟨fun he => ?_, divideIntoWords_of_le calcRMS fuel doc⟩, key,
    divideIntoWords_returns calcRMS fuel doc⟩
  by_contra hc
  exact key (by omega) _ _ he

/-- C5. On a recording of constant loudness, whose twelve frames all have RMS 10,
the smoothed energies assigned to the interior frames 5 and 6 are both 11, so
that their maximum times 0.5 does not exceed their minimum; yet `init` ends
with one word that holds the two interior frames only, not the twelve frames
of the frame list. -/
theorem divideIntoWords_uniform_loud :
    (WavData.init loudRMS 12 loudDoc).map
        (fun r => (r.2.frames.map (fun f => f.maRms), r.2.words)) =
      some ([0, 0, 0, 0, 0, 11, 11, 0, 0, 0, 0, 0],
        [{ frames := [{ start := 1000, stop := 1400, maRms := 11 },
                      { start := 1200, stop := 1600, maRms := 11 }] }]) ∧
    (11 : ℚ) * (1 / 2) ≤ 11 := by
  constructor
  · decide!
  · norm_num

/-! ## Lemmas on the grouping scan -/

/-- A run of frames above the threshold only extends the word in progress. -/
lemma groupLoop_above (threshold : ℚ) (run : List Frame)
    (h : ∀ f ∈ run, f.maRms > threshold) :
    ∀ (rest : List Frame) (wordFrames : Option (List Frame)) (words : List Word),
      groupLoop threshold (run ++ rest) wordFrames words =
        groupLoop threshold rest
          (if run = [] then wordFrames else some (wordFrames.getD [] ++ run)) words := by
  induction run with
  | nil => intro rest wordFrames words; simp
  | cons f run ih =>
    intro rest wordFrames words
    have hf : f.maRms > threshold := h f (List.mem_cons_self _ _)
    have hrun : ∀ g ∈ run, g.maRms > threshold := fun g hg => h g (List.mem_cons_of_mem _ hg)
    rw [List.cons_append]
    simp only [groupLoop, hf, if_true]
    rw [ih hrun]
    by_cases hr : run = []
    · simp [hr]
    · simp [hr]

/-- C6, as the code has it. When every frame of a non-empty sequence is above the
threshold, the grouping scan appends no word: the word in progress is not
closed at the end of the scan. It is appended, as the one word holding all
those frames, once a frame at or below the threshold follows them. -/
theorem groupLoop_all_above (threshold : ℚ) (frames : List Frame) (words : List Word)
    (hne : frames ≠ []) (h : ∀ f ∈ frames, f.maRms > threshold) :
    groupLoop threshold frames none words = words ∧
    ∀ g : Frame, g.maRms ≤ threshold →
      groupLoop threshold (frames ++ [g]) none words = words ++ [{ frames := frames }] := by
  constructor
  · have := groupLoop_above threshold frames h [] none words
    rw [List.append_nil] at this
    rw [this]
    rfl
  · intro g hg
    rw [groupLoop_above threshold frames h [g] none words]
    have hg' : ¬ g.maRms > threshold := not_lt.mpr hg
    simp [hne, groupLoop, hg']

/-- Witness of `groupLoop_all_above`: two frames of smoothed energy 1 and 2, threshold 0. -/
theorem groupLoop_all_above_witness :
    groupLoop 0 [{ start := 0, stop := 4, maRms := 1 }, { start := 2, stop := 6, maRms := 2 }]
      none [] = [] ∧
    ∀ g : Frame, g.maRms ≤ 0 →
      groupLoop 0 ([{ start := 0, stop := 4, maRms := 1 }, { start := 2, stop := 6, maRms := 2 }]
          ++ [g]) none [] =
        [] ++ [{ frames :=
          [{ start := 0, stop := 4, maRms := 1 }, { start := 2, stop := 6, maRms := 2 }] }] :=
  groupLoop_all_above 0 _ [] (by simp) (by
    intro f hf
    simp only [List.mem_cons, List.mem_singleton, List.not_mem_nil, or_false] at hf
    rcases hf with rfl | rfl <;> norm_num)

/-- C6, as stated, fails: a sequence of one frame above the threshold makes the
grouping scan append no word instead of one. -/
theorem groupLoop_all_above_counterexample :
    ¬ (∀ (threshold : ℚ) (frames : List Frame) (words : List Word),
        frames ≠ [] → (∀ f ∈ frames, f.maRms > threshold) →
        (groupLoop threshold frames none words).length = words.length + 1) := by
  intro hall
  have := hall 0 [{ start := 0, stop := 4, maRms := 1 }] [] (by simp) (by
    intro f hf
    simp only [List.mem_singleton] at hf
    subst hf
    norm_num)
  simp [groupLoop] at this

/-! ## Lemmas on the word writer -/

/-- With an overlap of one half and two-byte samples the declared data size is the
number of frames of the word. -/
lemma waveSize_eq (word : Word) : waveSize word = word.frames.length := by
  unfold waveSize FRAME_OVERLAP sizeof_raw_t
  have : (word.frames.length : ℚ) * (1 - 1 / 2) * ((2 : Nat) : ℚ)
      = ((word.frames.length : Nat) : ℚ) := by push_cast; ring
  rw [this, Nat.floor_natCast]

/-- The copying loops perform `hop` assignments for each frame of the word. -/
lemma copyPlan_length (hop : Nat) (frames : List Frame) :
    ∀ frameNumber, (copyPlan hop frames frameNumber).length = frames.length * hop := by
  induction frames with
  | nil => intro _; simp [copyPlan]
  | cons f frames ih =>
    intro frameNumber
    simp only [copyPlan, List.length_append, List.length_map, List.length_range, ih,
      List.length_cons]
    ring

/-- The header written by `saveToFile` is never accepted by `checkHeader`: its
`bitsPerSample` is the byte width 2 of a sample, on one channel. -/
lemma saveToFileHeader_rejected (LONG_MAX : Nat) (doc : WavData) (word : Word) :
    checkHeader LONG_MAX (saveToFileHeader doc word) ≠ .ok () := by
  unfold checkHeader udiv
  simp only [saveToFileHeader, sizeof_raw_t, Except.bind]
  split_ifs <;> (intro h; cases h)

/-- For a non-empty word and a positive hop the declared data size is smaller than
the byte count of the samples that the copying loops assign. -/
lemma waveSize_lt_copied (doc : WavData) (word : Word) (hw : word.frames ≠ [])
    (hhop : 0 < samplesPerNonOverlap doc.samplesPerFrame) :
    (saveToFile doc word).1.subchunk2Size <
      (copyPlan (samplesPerNonOverlap doc.samplesPerFrame) word.frames 0).length
        * sizeof_raw_t := by
  have hl : 0 < word.frames.length := List.length_pos.mpr hw
  simp only [saveToFile, saveToFileHeader, waveSize_eq, copyPlan_length, sizeof_raw_t]
  nlinarith

/-- C7. The source header of `loudDoc` passes `checkHeader`, but the header that
`saveToFile` writes for its word declares 2 bits per sample on one channel and
is rejected by the check of the per-channel bit depth. -/
theorem saveToFile_header_invalid :
    checkHeader LONG_MAX_64 loudDoc.header = .ok () ∧
    (saveToFile loudDoc loudWord).1.numOfChan = 1 ∧
    (saveToFile loudDoc loudWord).1.bitsPerSample = 2 ∧
    checkHeader LONG_MAX_64 (saveToFile loudDoc loudWord).1 = .error .badBitsPerChannel := by
  exact ⟨rfl, rfl, rfl, rfl⟩

/-- C8. For the word of `loudDoc`, two frames with a hop of 200 samples, the header
written by `saveToFile` declares 2 data bytes, while the copying loops assign
400 samples, which is 800 bytes. -/
theorem saveToFile_size_mismatch :
    (saveToFile loudDoc loudWord).1.subchunk2Size = 2 ∧
    samplesPerNonOverlap loudDoc.samplesPerFrame = 200 ∧
    (copyPlan (samplesPerNonOverlap loudDoc.samplesPerFrame) loudWord.frames 0).length
      * sizeof_raw_t = 800 := by
  refine ⟨?_, ?_, ?_⟩
  · simp [saveToFile, saveToFileHeader, waveSize_eq, loudWord]
  · rw [samplesPerNonOverlap_eq]; rfl
  · rw [copyPlan_length, samplesPerNonOverlap_eq]; rfl

/-! ## Lemmas on `init` -/

/-- The loop of `divideIntoFrames` emits at least `n` frames when the count allows
`n` iterations and the first `n` frames end before `size`. -/
lemma framesLoop_length_ge (spf hop size : Nat) (n : Nat) :
    ∀ (k i : Nat) (frames : List Frame), n ≤ k →
      (∀ j, j < n → (i + j) * hop + spf < size) →
      frames.length + n ≤ (framesLoop spf hop size k i frames).length := by
  induction n with
  | zero =>
    intro k i frames _ _
    obtain ⟨m, _, he, _⟩ := framesLoop_spec spf hop size k i frames
    rw [he]; simp
  | succ n ih =>
    intro k i frames hk hj
    obtain ⟨k, rfl⟩ : ∃ k', k = k' + 1 := ⟨k - 1, by omega⟩
    have h0 : i * hop + spf < size := by simpa using hj 0 (by omega)
    unfold framesLoop
    simp only [h0, if_true]
    have := ih k (i + 1) (frames ++ [{ start := i * hop, stop := i * hop + spf }]) (by omega)
      (fun j hjn => by
        have := hj (j + 1) (by omega)
        have e : i + 1 + j = i + (j + 1) := by omega
        rwa [e])
    simp only [List.length_append, List.length_singleton] at this
    omega

/-- When its assertion and its divisors allow, `divideIntoFrames` returns normally
with the frames of its loop. -/
lemma divideIntoFrames_ok (doc : WavData) (h1 : doc.header.subchunk2Size ≠ 0)
    (h2 : doc.header.bitsPerSample / 8 ≠ 0)
    (h3 : samplesPerNonOverlap doc.samplesPerFrame ≠ 0) :
    divideIntoFrames doc = (.ok (), { doc with
      frames := framesLoop doc.samplesPerFrame (samplesPerNonOverlap doc.samplesPerFrame)
        doc.rawData.length
        (doc.header.subchunk2Size / (doc.header.bitsPerSample / 8)
          / samplesPerNonOverlap doc.samplesPerFrame) 0 doc.frames }) := by
  simp [divideIntoFrames, udiv, h1, h2, h3, Nat.pos_iff_ne_zero]

/-- On a mono 16-bit header and a good stream of zero bytes the decoding loop
appends zero samples and leaves the extreme values at zero. -/
lemma decodeLoop_zeros (hdr : WavHeader) (hc : hdr.numOfChan = 1) (hb : hdr.bitsPerSample = 16)
    (k : Nat) :
    ∀ (s : Decode) (m : Nat), s.fs.eof = false → s.fs.fail = false →
      s.fs.bytes = List.replicate m 0 → 2 * k ≤ m → s.minValue = 0 → s.maxValue = 0 →
      (decodeLoop hdr k s).rawData = s.rawData ++ List.replicate k 0 ∧
      (decodeLoop hdr k s).minValue = 0 ∧ (decodeLoop hdr k s).maxValue = 0 ∧
      (decodeLoop hdr k s).sampleNumber = s.sampleNumber + k := by
  induction k with
  | zero => intro s m _ _ _ _ h1 h2; simp [decodeLoop, h1, h2]
  | succ k ih =>
    intro s m he hf hbytes hm h1 h2
    have hl : 2 ≤ s.fs.bytes.length := by rw [hbytes, List.length_replicate]; omega
    have htake : s.fs.bytes.take 2 = [0, 0] := by
      rw [hbytes, List.take_replicate, Nat.min_eq_left (by omega)]; rfl
    have hval : toRaw (asInt16 [0, 0]) = 0 := by decide
    have hstep : decodeStep hdr s = s.push { s.fs with bytes := s.fs.bytes.drop 2 }
        { s.loc with value16 := [0, 0] } 0 := by
      simp [decodeStep, hc, hb, Stream.read, he, hf, hl, htake, hval]
    have hne : ¬ s.fs.eof = true := by rw [he]; decide
    unfold decodeLoop
    rw [if_neg hne, hstep]
    obtain ⟨r1, r2, r3, r4⟩ := ih
      (s.push { s.fs with bytes := s.fs.bytes.drop 2 } { s.loc with value16 := [0, 0] } 0)
      (m - 2) he hf (by simp [Decode.push, hbytes, List.drop_replicate]) (by omega)
      (by simp [Decode.push, h1]) (by simp [Decode.push, h2])
    refine ⟨?_, r2, r3, ?_⟩
    · rw [r1]; simp [Decode.push, List.replicate_succ]
    · rw [r4]; simp [Decode.push]; omega

/-- Decoding `n > 0` zero samples of a 16 kHz mono 16-bit recording stores `n`
samples with minimum and maximum 0, and sets frames of 400 samples. -/
lemma readRawData_silence (n : Nat) (hn : 0 < n) (loc : Locals) :
    readRawData (streamOf (List.replicate (2 * n) 0)) (pcmHeader 1 16000 16 (2 * n))
      (newWavData (pcmHeader 1 16000 16 (2 * n))) loc = (.ok (), silentDoc n) := by
  obtain ⟨r1, r2, r3, r4⟩ := decodeLoop_zeros (pcmHeader 1 16000 16 (2 * n)) rfl rfl n
    (Decode.entry (streamOf (List.replicate (2 * n) 0)) loc
      (newWavData (pcmHeader 1 16000 16 (2 * n))).rawData) (2 * n) rfl rfl rfl (le_refl _) rfl rfl
  have e1 : (pcmHeader 1 16000 16 (2 * n)).subchunk2Size
      / ((pcmHeader 1 16000 16 (2 * n)).numOfChan
        * ((pcmHeader 1 16000 16 (2 * n)).bitsPerSample / 8)) = n := by
    show 2 * n / (1 * (16 / 8)) = n
    omega
  have e2 : (pcmHeader 1 16000 16 (2 * n)).numOfChan
      * ((pcmHeader 1 16000 16 (2 * n)).bitsPerSample / 8) ≠ 0 := by
    show 1 * (16 / 8) ≠ 0
    decide
  have e3 : ((pcmHeader 1 16000 16 (2 * n)).bytesPerSec * FRAME_LENGTH) % 2 ^ 32 / 1000
      / ((pcmHeader 1 16000 16 (2 * n)).bitsPerSample / 8) = 400 := by
    show (16000 * 1 * (16 / 8) * 25) % 2 ^ 32 / 1000 / (16 / 8) = 400
    decide
  have e4 : (Decode.entry (streamOf (List.replicate (2 * n) 0)) loc
      (newWavData (pcmHeader 1 16000 16 (2 * n))).rawData).sampleNumber + n > 0 := by
    omega
  simp only [readRawData, udiv, e2, if_false, e1, r1, r2, r3, r4, e3, e4, not_true_eq_false]
  simp [Decode.entry, newWavData, silentDoc]

/-- When every frame has RMS 0 and no smoothed value yet, an iteration of the
smoothing pass leaves the state as it is. -/
lemma smoothNext_silent (calcRMS : Nat → Nat → ℚ) (i : Nat) (frame : Frame) (s : Smooth)
    (hf : s.frames[i]? = some frame) (hr : calcRMS frame.start frame.stop = 0)
    (hm : frame.maRms = 0) (h1 : s.maMin = 0) (h2 : s.maMax = 0) (h3 : s.maAvg = 0) :
    smoothNext calcRMS i frame s = s := by
  have hv : smoothedValue calcRMS frame = 0 := by simp [smoothedValue, hr]
  have hframe : ({ frame with maRms := 0 } : Frame) = frame := by
    cases frame; simp_all
  have hset : s.frames.set i frame = s.frames := by
    apply List.ext_getElem?
    intro j
    by_cases hj : i = j
    · subst hj
      rw [List.getElem?_set_self', hf]; rfl
    · rw [List.getElem?_set_ne hj]
  cases s
  simp_all [smoothNext]

/-- With enough fuel the smoothing loop over interior indices below 65530 leaves a
silent state as it is. -/
lemma smoothLoop_silent (calcRMS : Nat → Nat → ℚ) (fuel k : Nat) (hfuel : 12 ≤ fuel)
    (s : Smooth) (hs : ∀ f ∈ s.frames, calcRMS f.start f.stop = 0 ∧ f.maRms = 0)
    (h1 : s.maMin = 0) (h2 : s.maMax = 0) (h3 : s.maAvg = 0) :
    ∀ i : Nat, i + k ≤ s.frames.length → maShift ≤ i → i + k ≤ 65530 →
      smoothLoop calcRMS fuel k i s = some (.ok (), s) := by
  induction k with
  | zero => intro i _ _ _; rfl
  | succ k ih =>
    intro i h hi h5
    have hsh : maShift = 5 := rfl
    have hlt : i < s.frames.length := by omega
    have hf : s.frames[i]? = some s.frames[i] := List.getElem?_eq_getElem hlt
    have hmem := hs _ (List.getElem_mem hlt)
    unfold smoothLoop
    rw [smoothStep_ok calcRMS fuel i s _ hf hi (by omega) hfuel,
      smoothNext_silent calcRMS i _ s hf hmem.1 hmem.2 h1 h2 h3]
    exact ih (i + 1) (by omega) (by omega) (by omega)

/-- On more than ten and fewer than `2 ^ 16` frames that all have RMS 0,
`divideIntoWords` takes the uniform-energy branch and appends one word, the
whole frame list. -/
lemma divideIntoWords_silent (calcRMS : Nat → Nat → ℚ) (fuel : Nat) (doc : WavData)
    (h : 10 < doc.frames.length) (h16 : doc.frames.length < 2 ^ 16) (hfuel : 12 ≤ fuel)
    (hs : ∀ f ∈ doc.frames, calcRMS f.start f.stop = 0 ∧ f.maRms = 0) :
    divideIntoWords calcRMS fuel doc =
      some (.ok (), { doc with words := doc.words ++ [{ frames := doc.frames }] }) := by
  have hsh : maShift = 5 := rfl
  have hgt : doc.frames.length > 10 := h
  norm_num at h16
  unfold divideIntoWords
  simp only [hgt, not_true_eq_false, if_false]
  rw [smoothLoop_silent calcRMS fuel (doc.frames.length - maShift - maShift) hfuel
    { frames := doc.frames, maMin := 0, maMax := 0, maAvg := 0 } hs rfl rfl rfl maShift
    (by simp only; omega) (le_refl _) (by omega)]
  simp

/-- The frames of one second of 16 kHz mono 16-bit audio: 78 frames. -/
lemma framesLoop_second :
    framesLoop 400 200 16000 80 0 [] = (List.range 78).map frameAt := by
  decide!

/-- One second of 16 kHz mono 16-bit silence: `init` builds 78 frames, takes the
uniform-energy branch and ends with one word that holds all of them. -/
lemma init_silence (calcRMS : Nat → Nat → ℚ) (hr : ∀ a b, calcRMS a b = 0) (fuel : Nat)
    (hfuel : 12 ≤ fuel) :
    WavData.init calcRMS fuel (silentDoc 16000) =
      some (.ok (), { silentDoc 16000 with
        frames := (List.range 78).map frameAt
        words := [{ frames := (List.range 78).map frameAt }] }) := by
  have hspf : (silentDoc 16000).samplesPerFrame = 400 := rfl
  have hhop : samplesPerNonOverlap 400 = 200 := by rw [samplesPerNonOverlap_eq]
  have hlen : (silentDoc 16000).rawData.length = 16000 := List.length_replicate _ _
  have hsub : (silentDoc 16000).header.subchunk2Size = 32000 := rfl
  have hbits : (silentDoc 16000).header.bitsPerSample / 8 = 2 := rfl
  have h0 : (silentDoc 16000).frames = [] := rfl
  have hw : (silentDoc 16000).words = [] := rfl
  have hok := divideIntoFrames_ok (silentDoc 16000) (by rw [hsub]; decide)
    (by rw [hbits]; decide) (by rw [hspf, hhop]; decide)
  have hk : 32000 / 2 / 200 = 80 := by norm_num
  rw [hspf, hhop, hlen, hsub, hbits, h0, hk, framesLoop_second] at hok
  unfold WavData.init
  rw [hok]
  simp only
  rw [divideIntoWords_silent calcRMS fuel _ (by simp) (by simp) hfuel
    (fun f hf => by
      simp only [List.mem_map, List.mem_range] at hf
      obtain ⟨k, _, rfl⟩ := hf
      exact ⟨hr _ _, rfl⟩)]
  simp only [hw, List.nil_append, hspf]

/-- C10. On 13108000 all-zero samples of a 16 kHz mono 16-bit recording, which
yield more than ten frames, `init` does not return, whatever the RMS of the
frames and whatever the fuel: `divideIntoFrames` builds at least `2 ^ 16`
frames, and the window loop of the frame index 65530 does not end. -/
theorem init_longSilence_diverges (calcRMS : Nat → Nat → ℚ) (fuel : Nat) :
    WavData.init calcRMS fuel (silentDoc 13108000) = none := by
  have hspf : (silentDoc 13108000).samplesPerFrame = 400 := rfl
  have hhop : samplesPerNonOverlap (silentDoc 13108000).samplesPerFrame = 200 := by
    rw [samplesPerNonOverlap_eq, hspf]
  have hlen : (silentDoc 13108000).rawData.length = 13108000 :=
    List.length_replicate _ _
  have hsub : (silentDoc 13108000).header.subchunk2Size = 26216000 := rfl
  have hbits : (silentDoc 13108000).header.bitsPerSample / 8 = 2 := rfl
  have h0 : (silentDoc 13108000).frames = [] := rfl
  have hok := divideIntoFrames_ok (silentDoc 13108000) (by rw [hsub]; decide)
    (by rw [hbits]; decide) (by rw [hhop]; decide)
  unfold WavData.init
  rw [hok]
  simp only
  apply divideIntoWords_none
  simp only [hlen, hsub, hbits, hspf, h0]
  have hhop' : samplesPerNonOverlap 400 = 200 := hhop
  have hk : 26216000 / 2 / 200 = 65540 := by norm_num
  rw [hhop', hk]
  have h1 : (65536 : Nat) ≤ 65540 := by norm_num
  have h2 : ∀ j, j < 65536 → (0 + j) * 200 + 400 < 13108000 := fun j hj => by omega
  have h3 := framesLoop_length_ge 400 200 13108000 65536 65540 0 [] h1 h2
  have h4 : (2 : Nat) ^ 16 = 65536 := by norm_num
  rw [h4]
  simpa using h3

/-! ## The channel count and the division of `checkHeader` -/

/-- C16. A header with the tags `RIFF` and `WAVE`, audio format 1 and a channel
count of 0 passes the first three tests of `checkHeader`, the third being
`numOfChan > 2`, and reaches the division `bitsPerSample / numOfChan` with a
zero divisor: the channel-count test does not reject it. -/
theorem checkHeader_zero_channels :
    (pcmHeader 0 16000 16 4).riff = tagRIFF ∧ (pcmHeader 0 16000 16 4).wave = tagWAVE ∧
    (pcmHeader 0 16000 16 4).audioFormat = 1 ∧ ¬ (pcmHeader 0 16000 16 4).numOfChan > 2 ∧
    (pcmHeader 0 16000 16 4).numOfChan = 0 ∧
    checkHeader LONG_MAX_64 (pcmHeader 0 16000 16 4) = .error .divisionByZero :=
  ⟨rfl, rfl, rfl, by decide, rfl, rfl⟩

/-- Whatever the other fields, a channel count of 0 with valid tags and audio
format lets `checkHeader` divide by zero. -/
lemma checkHeader_divides_by_zero (LONG_MAX : Nat) (h : WavHeader) (h1 : h.riff = tagRIFF)
    (h2 : h.wave = tagWAVE) (h3 : h.audioFormat = 1) (h4 : h.numOfChan = 0) :
    checkHeader LONG_MAX h = .error .divisionByZero := by
  have e1 : strncmp h.riff.bytes litRIFF 4 = 0 := (strncmp_RIFF _).mpr h1
  have e2 : strncmp h.wave.bytes litWAVE 4 = 0 := (strncmp_WAVE _).mpr h2
  simp [checkHeader, udiv, e1, e2, h3, h4, Except.bind]

/-! ## Truncated streams -/

/-- C14. A validated mono 16-bit header declaring three samples, on a stream that
holds only the two complete samples 1 and -1: the third read finds the stream
exhausted and leaves the local as it was, yet its value is stored, so that
three samples are stored, the last one not read from the stream. -/
theorem readRawData_truncated :
    checkHeader LONG_MAX_64 threeSampleHeader = .ok () ∧
    threeSampleHeader.subchunk2Size
      / (threeSampleHeader.numOfChan * (threeSampleHeader.bitsPerSample / 8)) = 3 ∧
    (readRawData (streamOf [1, 0, 255, 255]) threeSampleHeader
      (newWavData threeSampleHeader) zeroLocals).2.rawData = [1, -1, -1] ∧
    (readRawData (streamOf [1, 0, 255, 255]) threeSampleHeader
      (newWavData threeSampleHeader) zeroLocals).2.numberOfSamples = 3 := by
  refine ⟨rfl, by decide, by decide, by decide⟩

/-- Once `eofbit` is set the decoding loop stores nothing more. -/
lemma decodeLoop_eof (hdr : WavHeader) (n : Nat) (s : Decode) (he : s.fs.eof = true) :
    decodeLoop hdr n s = s := by
  cases n with
  | zero => rfl
  | succ n => simp [decodeLoop, he]

/-- On a mono 16-bit header the iteration that finds fewer than two bytes in a good
stream sets `eofbit` and still appends a sample. -/
lemma decodeStep_mono16_short (hdr : WavHeader) (s : Decode)
    (hc : hdr.numOfChan = 1) (hb : hdr.bitsPerSample = 16)
    (he : s.fs.eof = false) (hf : s.fs.fail = false) (hl : s.fs.bytes.length < 2) :
    (decodeStep hdr s).fs.eof = true ∧
      (decodeStep hdr s).rawData.length = s.rawData.length + 1 := by
  have hl' : ¬ 2 ≤ s.fs.bytes.length := by omega
  simp [decodeStep, hc, hb, Stream.read, he, hf, hl', Decode.push]

/-- On a mono 16-bit header declaring `n` samples and a good stream that holds only
`k < n` complete samples, the decoding loop stores `k + 1` samples. -/
lemma decodeLoop_mono16_truncated (hdr : WavHeader) (hc : hdr.numOfChan = 1)
    (hb : hdr.bitsPerSample = 16) (k : Nat) :
    ∀ (n : Nat) (s : Decode), s.fs.eof = false → s.fs.fail = false →
      s.fs.bytes.length / 2 = k → k < n →
      (decodeLoop hdr n s).rawData.length = s.rawData.length + (k + 1) := by
  induction k with
  | zero =>
    intro n s he hf hl hn
    obtain ⟨n, rfl⟩ : ∃ m, n = m + 1 := ⟨n - 1, by omega⟩
    obtain ⟨h1, h2⟩ := decodeStep_mono16_short hdr s hc hb he hf (by omega)
    unfold decodeLoop
    simp only [he, Bool.false_eq_true, if_false]
    rw [decodeLoop_eof hdr n _ h1, h2]
  | succ k ih =>
    intro n s he hf hl hn
    obtain ⟨n, rfl⟩ : ∃ m, n = m + 1 := ⟨n - 1, by omega⟩
    obtain ⟨h1, h2, h3, h4⟩ := decodeStep_mono16_fs hdr s hc hb he hf (by omega)
    unfold decodeLoop
    simp only [he, Bool.false_eq_true, if_false]
    rw [ih n (decodeStep hdr s) h1 h2 (by omega) (by omega), h4]
    simp
    omega

/-! ## The hop and the divisors of `divideIntoFrames` -/

/-- A header accepted by `checkHeader` has at least eight bits per sample. -/
lemma checkHeader_bytesPerSample (LONG_MAX : Nat) (h : WavHeader)
    (hv : checkHeader LONG_MAX h = .ok ()) : 0 < h.bitsPerSample / 8 := by
  obtain ⟨_, _, _, hc, hb, _⟩ := (checkHeader_accepts LONG_MAX h).mp hv
  rcases hc with hc | hc <;> rw [hc] at hb <;> omega

/-- The hop is positive exactly when a frame has two samples or more. -/
lemma samplesPerNonOverlap_pos (n : Nat) : 0 < samplesPerNonOverlap n ↔ 2 ≤ n := by
  rw [samplesPerNonOverlap_eq]
  omega

/-- C19. The header `lowRateHeader` passes `checkHeader`, and `readRawData` returns
normally from it with `samplesPerFrame = 1`, which satisfies the postcondition
`samplesPerFrame > 0`; the hop is then 0, and `divideIntoFrames` divides by
zero when it computes the frame count. -/
theorem divideIntoFrames_zero_hop :
    checkHeader LONG_MAX_64 lowRateHeader = .ok () ∧
    readRawData (streamOf [1, 0, 2, 0]) lowRateHeader (newWavData lowRateHeader) zeroLocals
      = (.ok (), lowRateDoc) ∧
    0 < lowRateDoc.samplesPerFrame ∧
    0 < lowRateDoc.header.bitsPerSample / 8 ∧
    samplesPerNonOverlap lowRateDoc.samplesPerFrame = 0 ∧
    divideIntoFrames lowRateDoc = (.error .divisionByZero, lowRateDoc) := by
  have hhop : samplesPerNonOverlap lowRateDoc.samplesPerFrame = 0 := by
    rw [samplesPerNonOverlap_eq]; rfl
  refine ⟨rfl, rfl, by decide, by decide, hhop, ?_⟩
  have h1 : ¬ ¬ lowRateDoc.header.subchunk2Size > 0 := by decide
  have h2 : ¬ lowRateDoc.header.bitsPerSample / 8 = 0 := by decide
  simp only [divideIntoFrames, udiv, hhop, h1, h2, if_false, if_true]

/-! ## The frames that `divideIntoFrames` emits -/

/-- The loop of `divideIntoFrames` stops before the count is used up only at a
frame that does not end before `size`. -/
lemma framesLoop_stop (spf hop size : Nat) (k i : Nat) (frames : List Frame) :
    ∃ m, m ≤ k ∧
      framesLoop spf hop size k i frames =
        frames ++ (List.range m).map
          (fun j => ({ start := (i + j) * hop, stop := (i + j) * hop + spf } : Frame)) ∧
      (∀ j, j < m → (i + j) * hop + spf < size) ∧
      (m < k → ¬ ((i + m) * hop + spf < size)) := by
  induction k generalizing i frames with
  | zero => exact ⟨0, le_refl _, by simp [framesLoop], by simp, by simp⟩
  | succ k ih =>
    unfold framesLoop
    by_cases h : i * hop + spf < size
    · simp only [h, if_true]
      obtain ⟨m, hm, he, hb, hs⟩ :=
        ih (i + 1) (frames ++ [{ start := i * hop, stop := i * hop + spf }])
      have e : ∀ j, i + 1 + j = i + (j + 1) := fun j => by omega
      refine ⟨m + 1, by omega, ?_, ?_, ?_⟩
      · rw [he, List.range_succ_eq_map, List.map_cons, List.map_map, List.append_assoc]
        simp only [List.singleton_append, add_zero, List.append_cancel_left_eq, List.cons.injEq,
          true_and]
        apply List.map_congr_left
        intro j _
        simp only [Function.comp, Nat.succ_eq_add_one, e]
      · intro j hj
        rcases j with _ | j
        · simpa using h
        · have := hb j (by omega)
          rwa [e] at this
      · intro hlt
        have := hs (by omega)
        rwa [e] at this
    · simp only [h, if_false]
      exact ⟨0, by omega, by simp, by simp, fun _ => by simpa using h⟩

/-- With a positive count of candidate frames, the loop of `divideIntoFrames`
started at index 0 emits the frame of an index `i` below the count exactly when
that frame ends strictly before `size`: a frame that ends at `size` is
dropped. -/
lemma framesLoop_emits (spf hop size k : Nat) :
    ∃ m, framesLoop spf hop size k 0 [] =
        (List.range m).map (fun j => ({ start := j * hop, stop := j * hop + spf } : Frame)) ∧
      ∀ i, i < k → (i < m ↔ i * hop + spf < size) := by
  obtain ⟨m, hm, he, hb, hs⟩ := framesLoop_stop spf hop size k 0 []
  refine ⟨m, by simpa using he, fun i hi => ⟨fun h => by simpa using hb i h, fun h => ?_⟩⟩
  by_contra hc
  have hmk : m < k := by omega
  have h1 := hs hmk
  have h2 : m * hop ≤ i * hop := Nat.mul_le_mul_right _ (by omega)
  simp only [zero_add] at h1
  omega

/-- The two successive integer divisions agree with the floor of the exact
quotient. -/
lemma two_step_floor (a b : Nat) :
    a * FRAME_LENGTH / 1000 / b
      = ⌊(a : ℚ) * (FRAME_LENGTH : ℚ) / 1000 / (b : ℚ)⌋₊ := by
  have e : (a : ℚ) * (FRAME_LENGTH : ℚ) / 1000 / (b : ℚ)
      = ((a * FRAME_LENGTH : Nat) : ℚ) / ((1000 * b : Nat) : ℚ) := by
    push_cast
    rw [div_div]
  rw [e, Nat.floor_div_eq_div, Nat.div_div_eq_div_mul]

/-- When the divisor of the sample count is not zero and the decoding loop stored
a sample, `readRawData` sets `samplesPerFrame` by its two integer divisions of
the 32-bit product `bytesPerSec * FRAME_LENGTH`. -/
lemma readRawData_sets_samplesPerFrame (fs : Stream) (hdr : WavHeader) (wavFile : WavData)
    (loc : Locals) (hdiv : hdr.numOfChan * (hdr.bitsPerSample / 8) ≠ 0)
    (hstored : (readRawData fs hdr wavFile loc).2.rawData ≠ wavFile.rawData) :
    (readRawData fs hdr wavFile loc).2.samplesPerFrame
      = (hdr.bytesPerSec * FRAME_LENGTH) % 2 ^ 32 / 1000 / (hdr.bitsPerSample / 8) := by
  obtain ⟨stored, h1, _, h3, _, _, _⟩ := decodeLoop_spec hdr
    (hdr.subchunk2Size / (hdr.numOfChan * (hdr.bitsPerSample / 8)))
    (Decode.entry fs loc wavFile.rawData)
  have h3' : (decodeLoop hdr (hdr.subchunk2Size / (hdr.numOfChan * (hdr.bitsPerSample / 8)))
      (Decode.entry fs loc wavFile.rawData)).sampleNumber = stored.length := by
    rw [h3]; simp [Decode.entry]
  by_cases hz : stored.length = 0
  · exfalso
    apply hstored
    have hnil : stored = [] := List.length_eq_zero.mp hz
    have h1' : (decodeLoop hdr (hdr.subchunk2Size / (hdr.numOfChan * (hdr.bitsPerSample / 8)))
        (Decode.entry fs loc wavFile.rawData)).rawData = wavFile.rawData := by
      rw [h1, hnil]; simp [Decode.entry]
    simp only [readRawData, udiv, hdiv, if_false, h3', hz, gt_iff_lt, lt_self_iff_false,
      not_false_eq_true, if_true, h1']
  · have hpos : stored.length > 0 := by omega
    simp only [readRawData, udiv, hdiv, if_false, h3', hpos, not_true_eq_false]
    split_ifs <;> rfl

/-- C15. For a positive byte rate and a positive byte width of a sample whose
product `bytesPerSec * FRAME_LENGTH` does not overflow 32 bits, whenever
`readRawData` reaches the computation of the frame length (the channel count
is positive and at least one sample was stored), the `samplesPerFrame` it
sets, obtained by two successive integer divisions, is the floor of
`bytesPerSec * FRAME_LENGTH / 1000 / bytesPerSample` evaluated over the
rationals. -/
theorem readRawData_samplesPerFrame (fs : Stream) (hdr : WavHeader) (wavFile : WavData)
    (loc : Locals) (hsec : 0 < hdr.bytesPerSec) (hbps : 0 < hdr.bitsPerSample / 8)
    (hno : hdr.bytesPerSec * FRAME_LENGTH < 2 ^ 32) (hchan : 0 < hdr.numOfChan)
    (hstored : (readRawData fs hdr wavFile loc).2.rawData ≠ wavFile.rawData) :
    (readRawData fs hdr wavFile loc).2.samplesPerFrame
      = ⌊(hdr.bytesPerSec : ℚ) * (FRAME_LENGTH : ℚ) / 1000
          / ((hdr.bitsPerSample / 8 : Nat) : ℚ)⌋₊ := by
  have _hpos := hsec
  rw [readRawData_sets_samplesPerFrame fs hdr wavFile loc
    (Nat.mul_ne_zero hchan.ne' hbps.ne') hstored, Nat.mod_eq_of_lt hno]
  exact two_step_floor _ _

/-- Witness of `readRawData_samplesPerFrame`: three samples of a 16 kHz mono 16-bit
recording, whose byte rate is 32000. -/
theorem readRawData_samplesPerFrame_witness :
    (readRawData (streamOf [1, 0, 255, 255, 0, 128]) threeSampleHeader
        (newWavData threeSampleHeader) zeroLocals).2.samplesPerFrame
      = ⌊(threeSampleHeader.bytesPerSec : ℚ) * (FRAME_LENGTH : ℚ) / 1000
          / ((threeSampleHeader.bitsPerSample / 8 : Nat) : ℚ)⌋₊ :=
  readRawData_samplesPerFrame (streamOf [1, 0, 255, 255, 0, 128]) threeSampleHeader
    (newWavData threeSampleHeader) zeroLocals (by decide) (by decide)
    (by norm_num [threeSampleHeader, pcmHeader, FRAME_LENGTH]) (by decide) (by decide)

/-- Beyond the claim's domain: at a byte rate of 171798692 the 32-bit product
`bytesPerSec * FRAME_LENGTH` wraps to 4, the frame length in samples is 0 and
`readRawData` fails on its second assertion. -/
lemma readRawData_wrapped_abort :
    (readRawData (streamOf [1, 0, 255, 255, 0, 128])
      { threeSampleHeader with bytesPerSec := 171798692 }
      (newWavData { threeSampleHeader with bytesPerSec := 171798692 }) zeroLocals).1
        = .error .assertion ∧
    (readRawData (streamOf [1, 0, 255, 255, 0, 128])
      { threeSampleHeader with bytesPerSec := 171798692 }
      (newWavData { threeSampleHeader with bytesPerSec := 171798692 }) zeroLocals).2.samplesPerFrame
        = 0 :=
  ⟨rfl, by decide⟩

/-- Beyond the claim's domain: at a byte rate of 4294967295 the 32-bit product wraps
and `readRawData` sets `samplesPerFrame` to 2147483, not to the floor 53687091 of
the exact quotient. -/
lemma readRawData_wrapped_value :
    (readRawData (streamOf [1, 0, 255, 255, 0, 128])
      { threeSampleHeader with bytesPerSec := 4294967295 }
      (newWavData { threeSampleHeader with bytesPerSec := 4294967295 }) zeroLocals).2.samplesPerFrame
        = 2147483 ∧
    4294967295 * FRAME_LENGTH / 1000 / 2 = 53687091 :=
  ⟨by decide, by decide⟩

/-! ## The bounds of the output buffer -/

/-- The copying loops fail exactly when one of their assignments reads outside the
sample sequence or writes outside the buffer. -/
lemma runCopy_error_iff (rawData : List Int) (plan : List (Nat × Nat)) :
    ∀ data : List (Option Int),
      runCopy rawData plan data = .error .outOfRange ↔
        ∃ p ∈ plan, data.length ≤ p.1 ∨ rawData.length ≤ p.2 := by
  induction plan with
  | nil => intro data; simp [runCopy]
  | cons p plan ih =>
    intro data
    obtain ⟨dst, src⟩ := p
    unfold runCopy
    by_cases hs : src < rawData.length
    · rw [List.getElem?_eq_getElem hs]
      simp only
      by_cases hd : dst < data.length
      · simp only [hd, if_true, ih, List.length_set, List.mem_cons, exists_eq_or_imp]
        constructor
        · intro h; exact Or.inr h
        · rintro (h | h)
          · omega
          · exact h
      · simp only [hd, if_false, List.mem_cons, exists_eq_or_imp, true_iff]
        exact Or.inl (Or.inl (by omega))
    · rw [List.getElem?_eq_none (by omega)]
      simp only [List.mem_cons, exists_eq_or_imp, true_iff]
      exact Or.inl (Or.inr (by omega))

/-- The assignment of the frame at position `f` of the word and of `i < hop` is one
of the assignments of the copying loops. -/
lemma copyPlan_mem (hop : Nat) (frames : List Frame) :
    ∀ (frameNumber f i : Nat) (hf : f < frames.length), i < hop →
      ((frameNumber + f) * hop + i, frames[f].start + i) ∈ copyPlan hop frames frameNumber := by
  induction frames with
  | nil => intro _ f _ hf; simp at hf
  | cons frame frames ih =>
    intro frameNumber f i hf hi
    simp only [copyPlan, List.mem_append, List.mem_map, List.mem_range]
    rcases f with _ | f
    · exact Or.inl ⟨i, hi, by simp⟩
    · right
      have := ih (frameNumber + 1) f i (by simpa using hf) hi
      have e : frameNumber + 1 + f = frameNumber + (f + 1) := by omega
      rw [e] at this
      simpa using this

/-- For a non-empty word and a positive hop the copying loops of `saveToFile` write
outside the buffer. -/
lemma saveToFile_outOfRange (doc : WavData) (word : Word) (hw : word.frames ≠ [])
    (hhop : 0 < samplesPerNonOverlap doc.samplesPerFrame) :
    (saveToFile doc word).2 = .error .outOfRange := by
  have hl : 0 < word.frames.length := List.length_pos.mpr hw
  simp only [saveToFile]
  rw [runCopy_error_iff]
  refine ⟨_, copyPlan_mem (samplesPerNonOverlap doc.samplesPerFrame) word.frames 0
    (word.frames.length - 1) (samplesPerNonOverlap doc.samplesPerFrame - 1) (by omega)
    (by omega), Or.inl ?_⟩
  simp only [List.length_replicate, waveSize_eq, sizeof_raw_t, zero_add]
  have h1 : word.frames.length - 1 ≤
      (word.frames.length - 1) * samplesPerNonOverlap doc.samplesPerFrame :=
    Nat.le_mul_of_pos_right _ hhop
  omega

/-- C18. For the word of `loudDoc`, two frames with a hop of 200 samples, the buffer
has `waveSize / sizeof(raw_t) = 1` element, while the copying loops assign the
index `0 * hop + 1 = 1` for the first frame and up to `1 * hop + 199 = 399` for
the second: the writes leave the buffer. -/
theorem saveToFile_write_outOfBounds :
    waveSize loudWord / sizeof_raw_t = 1 ∧
    samplesPerNonOverlap loudDoc.samplesPerFrame = 200 ∧
    (0 * 200 + 1, 1000 + 1) ∈ copyPlan 200 loudWord.frames 0 ∧
    (1 * 200 + 199, 1200 + 199) ∈ copyPlan 200 loudWord.frames 0 ∧
    ¬ (0 * 200 + 1 < waveSize loudWord / sizeof_raw_t) ∧
    (saveToFile loudDoc loudWord).2 = .error .outOfRange := by
  have hhop : samplesPerNonOverlap loudDoc.samplesPerFrame = 200 := by
    rw [samplesPerNonOverlap_eq]; rfl
  have hw : waveSize loudWord / sizeof_raw_t = 1 := by rw [waveSize_eq]; rfl
  refine ⟨hw, hhop, by decide, by decide!, by rw [hw]; decide, ?_⟩
  exact saveToFile_outOfRange loudDoc loudWord (by simp [loudWord]) (by rw [hhop]; decide)

/-! ## The smoothed energy of an interior frame -/

/-- C11. On `stepDoc`, whose twelve frames have the RMS values 1, 1, 1, 1, 1, 5, 7,
7, 7, 7, 7, 7, the smoothed energies that `init` stores on the interior frames
5 and 6 are 11/2 and 77/10, eleven tenths of the RMS of the frame itself, while
the arithmetic means of the RMS values of the frames 0 to 10 and 1 to 11 are
45/11 and 51/11. -/
theorem divideIntoWords_not_moving_average :
    (divideIntoFrames stepDoc).2.frames.map (fun f => stepRMS f.start f.stop)
      = [1, 1, 1, 1, 1, 5, 7, 7, 7, 7, 7, 7] ∧
    (WavData.init stepRMS 12 stepDoc).map (fun r => r.2.frames.map (fun f => f.maRms))
      = some [0, 0, 0, 0, 0, 11 / 2, 77 / 10, 0, 0, 0, 0, 0] ∧
    movingAverageSpec stepRMS (divideIntoFrames stepDoc).2.frames 5 = 45 / 11 ∧
    movingAverageSpec stepRMS (divideIntoFrames stepDoc).2.frames 6 = 51 / 11 := by
  refine ⟨by decide!, by decide!, by decide!, by decide!⟩

/-! ## The smoothing pass, whatever the fuel -/

/-- Below 65535 the window loop that still needs `n` iterations does not end with
`n` units of fuel or fewer. -/
lemma maWindowLoop_short (rms : ℚ) (bound : Nat) (fuel : Nat) :
    ∀ (n iMa : Nat) (ma : ℚ), bound < 65535 → iMa + n = bound + 1 → fuel ≤ n →
      maWindowLoop rms bound fuel iMa ma = none := by
  induction fuel with
  | zero => intro n iMa ma _ _ _; rfl
  | succ fuel ih =>
    intro n iMa ma hb h hf
    obtain ⟨n, rfl⟩ : ∃ m, n = m + 1 := ⟨n - 1, by omega⟩
    have h1 : iMa ≤ bound := by omega
    have h2 : (iMa + 1) % 2 ^ 16 = iMa + 1 := Nat.mod_eq_of_lt (by norm_num; omega)
    unfold maWindowLoop
    simp only [h1, if_true, h2]
    exact ih n (iMa + 1) (ma + rms) hb (by omega) (by omega)

/-- The number of iterations of the window loop of an interior index `i` below
65530, counted by adding 1 per iteration: `2 * maShift + 1 = 11`. -/
lemma maWindowLoop_iterations (fuel i : Nat) (h1 : maShift ≤ i) (h2 : i + maShift < 65535)
    (hfuel : 12 ≤ fuel) :
    maWindowLoop 1 (i + maShift) fuel ((i - maShift) % 2 ^ 16) 0
      = some (((2 * maShift + 1 : Nat) : ℚ)) := by
  have hs : maShift = 5 := rfl
  have hm : (i - maShift) % 2 ^ 16 = i - maShift := Nat.mod_eq_of_lt (by norm_num; omega)
  rw [hm, maWindowLoop_eq 1 _ h2 11 fuel (i - maShift) 0 (by omega) (by omega), hs]
  norm_num

/-- An iteration of the smoothing pass on an interior index that ends, whatever the
fuel, ends normally, on an index below 65530, in the state `smoothNext`. -/
lemma smoothStep_some (calcRMS : Nat → Nat → ℚ) (fuel i : Nat) (s : Smooth)
    (r : Except Abort Unit) (s' : Smooth) (hi : i < s.frames.length) (h1 : maShift ≤ i)
    (h : smoothStep calcRMS fuel i s = some (r, s')) :
    r = .ok () ∧ i + maShift < 65535 ∧
      ∃ frame, s.frames[i]? = some frame ∧ s' = smoothNext calcRMS i frame s := by
  have hs : maShift = 5 := rfl
  have hf : s.frames[i]? = some s.frames[i] := List.getElem?_eq_getElem hi
  by_cases hb : 65535 ≤ i + maShift
  · rw [smoothStep_none calcRMS fuel i s hi hb] at h
    exact Option.noConfusion h
  · by_cases hfuel : 12 ≤ fuel
    · rw [smoothStep_ok calcRMS fuel i s _ hf h1 (by omega) hfuel] at h
      simp only [Option.some.injEq, Prod.mk.injEq] at h
      exact ⟨h.1.symm, by omega, _, hf, h.2.symm⟩
    · exfalso
      have hm : (i - maShift) % 2 ^ 16 = i - maShift := Nat.mod_eq_of_lt (by norm_num; omega)
      unfold smoothStep at h
      simp only [hf, hm] at h
      rw [maWindowLoop_short _ (i + maShift) fuel 11 (i - maShift) 0 (by omega) (by omega)
        (by omega)] at h
      exact Option.noConfusion h

/-- The state `smoothNext` keeps the length of the frame list. -/
lemma smoothNext_length (calcRMS : Nat → Nat → ℚ) (i : Nat) (frame : Frame) (s : Smooth) :
    (smoothNext calcRMS i frame s).frames.length = s.frames.length := by
  simp [smoothNext]

/-- A smoothing loop over interior indices that ends, whatever the fuel, ends
normally in the state `smoothPass`, and all its indices are below 65530. -/
lemma smoothLoop_some (calcRMS : Nat → Nat → ℚ) (fuel k : Nat) :
    ∀ (i : Nat) (s : Smooth) (r : Except Abort Unit) (s' : Smooth),
      i + k ≤ s.frames.length → maShift ≤ i →
      smoothLoop calcRMS fuel k i s = some (r, s') →
      r = .ok () ∧ s' = smoothPass calcRMS k i s ∧ (0 < k → i + k ≤ 65530) := by
  induction k with
  | zero =>
    intro i s r s' _ _ h
    simp only [smoothLoop, Option.some.injEq, Prod.mk.injEq] at h
    exact ⟨h.1.symm, by rw [← h.2]; rfl, fun h0 => by omega⟩
  | succ k ih =>
    intro i s r s' hik hi h
    have hs : maShift = 5 := rfl
    unfold smoothLoop at h
    cases hstep : smoothStep calcRMS fuel i s with
    | none => rw [hstep] at h; exact Option.noConfusion h
    | some p =>
      obtain ⟨r1, s1⟩ := p
      obtain ⟨e1, e2, frame, e3, e4⟩ :=
        smoothStep_some calcRMS fuel i s r1 s1 (by omega) hi hstep
      subst e1 e4
      rw [hstep] at h
      simp only at h
      obtain ⟨a1, a2, a3⟩ := ih (i + 1) _ r s'
        (by rw [smoothNext_length]; omega) (by omega) h
      refine ⟨a1, ?_, fun _ => ?_⟩
      · rw [a2]
        simp only [smoothPass, e3]
      · by_cases hk : 0 < k
        · have := a3 hk; omega
        · omega

/-- With enough fuel the smoothing loop over interior indices below 65530 ends
normally in the state `smoothPass`. -/
lemma smoothLoop_eq_pass (calcRMS : Nat → Nat → ℚ) (fuel k : Nat) (hfuel : 12 ≤ fuel)
    (i : Nat) (s : Smooth) (h1 : i + k ≤ s.frames.length) (h2 : maShift ≤ i)
    (h3 : i + k ≤ 65530) :
    smoothLoop calcRMS fuel k i s = some (.ok (), smoothPass calcRMS k i s) := by
  obtain ⟨s', h, _⟩ := smoothLoop_ok calcRMS fuel k hfuel i s h1 h2 h3
  obtain ⟨_, e, _⟩ := smoothLoop_some calcRMS fuel k i s _ s' h1 h2 h
  rw [h, e]

/-! ## What the smoothing pass computes -/

/-- The smoothed value is eleven tenths of the RMS of the frame. -/
lemma smoothedValue_eq (calcRMS : Nat → Nat → ℚ) (frame : Frame) :
    smoothedValue calcRMS frame = 11 / 10 * calcRMS frame.start frame.stop := by
  unfold smoothedValue MOVING_AVERAGE_SIZE
  push_cast
  ring

/-- The frames after `smoothNext`: the frame at index `i` has received its smoothed
value, the others are as before. -/
lemma smoothNext_getElem? (calcRMS : Nat → Nat → ℚ) (i : Nat) (frame : Frame) (s : Smooth)
    (hf : s.frames[i]? = some frame) (j : Nat) :
    (smoothNext calcRMS i frame s).frames[j]? =
      if j = i then some { frame with maRms := smoothedValue calcRMS frame }
      else s.frames[j]? := by
  simp only [smoothNext]
  by_cases hj : j = i
  · subst hj
    rw [List.getElem?_set_self', hf]
    simp
  · rw [List.getElem?_set_ne (fun h => hj h.symm)]
    simp [hj]

/-- The frames after the smoothing pass over the `k` indices from `i` on: each of
them holds eleven tenths of its own RMS, the others are as before. -/
lemma smoothPass_getElem? (calcRMS : Nat → Nat → ℚ) (k : Nat) :
    ∀ (i : Nat) (s : Smooth), i + k ≤ s.frames.length → ∀ j : Nat,
      (smoothPass calcRMS k i s).frames[j]? =
        if i ≤ j ∧ j < i + k then
          (s.frames[j]?).map (fun f => { f with maRms := smoothedValue calcRMS f })
        else s.frames[j]? := by
  induction k with
  | zero =>
    intro i s _ j
    have : ¬ (i ≤ j ∧ j < i + 0) := by omega
    rw [if_neg this]
    rfl
  | succ k ih =>
    intro i s h j
    have hi : i < s.frames.length := by omega
    have hf : s.frames[i]? = some s.frames[i] := List.getElem?_eq_getElem hi
    simp only [smoothPass, hf]
    rw [ih (i + 1) _ (by rw [smoothNext_length]; omega) j,
      smoothNext_getElem? calcRMS i _ s hf j]
    by_cases hj : j = i
    · subst hj
      have h1 : ¬ (j + 1 ≤ j ∧ j < j + 1 + k) := by omega
      have h2 : j ≤ j ∧ j < j + (k + 1) := by omega
      simp [h1, h2, hf]
    · by_cases hr : i + 1 ≤ j ∧ j < i + 1 + k
      · have h2 : i ≤ j ∧ j < i + (k + 1) := by omega
        simp [hr, h2, hj]
      · have h2 : ¬ (i ≤ j ∧ j < i + (k + 1)) := by omega
        simp [hr, h2, hj]

/-- With more than ten and fewer than `2 ^ 16` frames, `divideIntoWords` stores on
every interior frame eleven tenths of the RMS of that frame itself. -/
lemma divideIntoWords_smoothed (calcRMS : Nat → Nat → ℚ) (fuel : Nat) (doc : WavData)
    (h : 10 < doc.frames.length) (h16 : doc.frames.length < 2 ^ 16) (hfuel : 12 ≤ fuel) :
    ∃ d, divideIntoWords calcRMS fuel doc = some (.ok (), d) ∧
      ∀ i, maShift ≤ i → i < doc.frames.length - maShift →
        d.frames[i]? = (doc.frames[i]?).map
          (fun f => { f with maRms := 11 / 10 * calcRMS f.start f.stop }) := by
  have hsh : maShift = 5 := rfl
  have hgt : doc.frames.length > 10 := h
  norm_num at h16
  have hpass := smoothLoop_eq_pass calcRMS fuel (doc.frames.length - maShift - maShift) hfuel
    maShift { frames := doc.frames, maMin := 0, maMax := 0, maAvg := 0 }
    (by simp only; omega) (le_refl _) (by omega)
  have hget := smoothPass_getElem? calcRMS (doc.frames.length - maShift - maShift) maShift
    { frames := doc.frames, maMin := 0, maMax := 0, maAvg := 0 } (by simp only; omega)
  have hframes : ∀ i, maShift ≤ i → i < doc.frames.length - maShift →
      (smoothPass calcRMS (doc.frames.length - maShift - maShift) maShift
        { frames := doc.frames, maMin := 0, maMax := 0, maAvg := 0 }).frames[i]? =
      (doc.frames[i]?).map (fun f => { f with maRms := 11 / 10 * calcRMS f.start f.stop }) := by
    intro i h1 h2
    rw [hget i, if_pos (by omega)]
    simp only [smoothedValue_eq]
  unfold divideIntoWords
  simp only [hgt, not_true_eq_false, if_false, hpass]
  split_ifs
  · exact ⟨_, rfl, hframes⟩
  · exact ⟨_, rfl, hframes⟩

/-! ## The tracked minimum and the choice of the branch -/

/-- The frame list of `silentDoc 13108000` has `2 ^ 16` frames or more. -/
lemma longFramedDoc_length : 2 ^ 16 ≤ longFramedDoc.frames.length := by
  have hspf : (silentDoc 13108000).samplesPerFrame = 400 := rfl
  have hhop : samplesPerNonOverlap 400 = 200 := by rw [samplesPerNonOverlap_eq]
  have hlen : (silentDoc 13108000).rawData.length = 13108000 := List.length_replicate _ _
  have hsub : (silentDoc 13108000).header.subchunk2Size = 26216000 := rfl
  have hbits : (silentDoc 13108000).header.bitsPerSample / 8 = 2 := rfl
  have h0 : (silentDoc 13108000).frames = [] := rfl
  have hok := divideIntoFrames_ok (silentDoc 13108000) (by rw [hsub]; decide)
    (by rw [hbits]; decide) (by rw [hspf, hhop]; decide)
  have hk : 26216000 / 2 / 200 = 65540 := by norm_num
  unfold longFramedDoc
  rw [hok]
  simp only [hlen, hsub, hbits, hspf, h0]
  rw [hhop, hk]
  have h1 : (65536 : Nat) ≤ 65540 := by norm_num
  have h2 : ∀ j, j < 65536 → (0 + j) * 200 + 400 < 13108000 := fun j hj => by omega
  have h3 := framesLoop_length_ge 400 200 13108000 65536 65540 0 [] h1 h2
  have h4 : (2 : Nat) ^ 16 = 65536 := by norm_num
  rw [h4]
  simpa using h3

/-- C20. The frame list built from 13108000 samples has more than ten frames and
65530 is one of its interior indices; the window loop of that index, whose
16-bit counter starts at 65525 and is compared with 65535, does not end
whatever the fuel, and neither does the smoothing pass of `divideIntoWords`. -/
theorem smoothing_pass_diverges (calcRMS : Nat → Nat → ℚ) (fuel : Nat) :
    10 < longFramedDoc.frames.length ∧
    maShift ≤ 65530 ∧ 65530 < longFramedDoc.frames.length - maShift ∧
    (65530 - maShift) % 2 ^ 16 = 65525 ∧ 65530 + maShift = 65535 ∧
    (∀ (rms ma : ℚ),
      maWindowLoop rms (65530 + maShift) fuel ((65530 - maShift) % 2 ^ 16) ma = none) ∧
    divideIntoWords calcRMS fuel longFramedDoc = none := by
  have hlen := longFramedDoc_length
  have hs : maShift = 5 := rfl
  have h4 : (2 : Nat) ^ 16 = 65536 := by norm_num
  rw [h4] at hlen
  refine ⟨by omega, by omega, by omega, by rw [hs]; norm_num, by rw [hs], fun rms ma => ?_, ?_⟩
  · exact maWindowLoop_none rms _ (by omega) fuel _ ma (Nat.mod_lt _ (by norm_num))
  · exact divideIntoWords_none calcRMS fuel longFramedDoc (by rw [h4]; exact hlen)

/-! ## The grouping scan and the runs of the spec -/

/-- The run ending at an index inside a prefix does not depend on what follows the
prefix. -/
lemma runEndingAt_append (threshold : ℚ) (pre rest : List Frame) (b : Nat)
    (hb : b ≤ pre.length) :
    runEndingAt threshold (pre ++ rest) b = runEndingAt threshold pre b := by
  unfold runEndingAt
  rw [List.take_append_of_le_length hb]

/-- The run ending at the end of a list extended by one frame. -/
lemma runEndingAt_snoc (threshold : ℚ) (pre : List Frame) (f : Frame) :
    runEndingAt threshold (pre ++ [f]) (pre.length + 1) =
      if f.maRms > threshold then runEndingAt threshold pre pre.length ++ [f] else [] := by
  have h1 : (pre ++ [f]).take (pre.length + 1) = pre ++ [f] := by
    rw [List.take_of_length_le (by simp)]
  have h2 : pre.take pre.length = pre := List.take_length pre
  unfold runEndingAt
  rw [h1, h2, List.reverse_append, List.reverse_singleton, List.singleton_append,
    List.takeWhile_cons]
  by_cases hf : f.maRms > threshold
  · simp [hf]
  · simp [hf]

/-- The runs of the spec for a list extended by one frame: the run that ends at
the new frame is added when that frame is at or below the threshold. -/
lemma closedRuns_snoc (threshold : ℚ) (pre : List Frame) (f : Frame) :
    closedRuns threshold (pre ++ [f]) =
      closedRuns threshold pre ++
        (if f.maRms ≤ threshold ∧ runEndingAt threshold pre pre.length ≠ [] then
          [runEndingAt threshold pre pre.length] else []) := by
  unfold closedRuns
  rw [List.length_append, List.length_singleton, List.range_succ, List.filterMap_append]
  congr 1
  · apply List.filterMap_congr
    intro b hb
    have hb' : b < pre.length := List.mem_range.mp hb
    rw [List.getElem?_append_left hb', runEndingAt_append threshold pre [f] b (by omega)]
  · have hlast : (pre ++ [f])[pre.length]? = some f := by
      rw [List.getElem?_append_right (le_refl _)]
      simp
    simp only [List.filterMap_cons, List.filterMap_nil, hlast,
      runEndingAt_append threshold pre [f] pre.length (le_refl _)]
    split_ifs <;> rfl

/-- The grouping scan, resumed after a prefix `pre` with the word in progress and
the words that the prefix determines, yields the runs of the whole list. -/
lemma groupLoop_closedRuns (threshold : ℚ) (rest : List Frame) :
    ∀ (pre : List Frame) (words : List Word),
      groupLoop threshold rest
          (if runEndingAt threshold pre pre.length = [] then none
            else some (runEndingAt threshold pre pre.length))
          (words ++ (closedRuns threshold pre).map (fun r => ({ frames := r } : Word)))
        = words ++ (closedRuns threshold (pre ++ rest)).map
            (fun r => ({ frames := r } : Word)) := by
  induction rest with
  | nil => intro pre words; simp [groupLoop]
  | cons f rest ih =>
    intro pre words
    have hsplit : pre ++ f :: rest = (pre ++ [f]) ++ rest := by simp
    have hlen : (pre ++ [f]).length = pre.length + 1 := by simp
    rw [hsplit, ← ih (pre ++ [f]) words, hlen, runEndingAt_snoc, closedRuns_snoc]
    by_cases hf : f.maRms > threshold
    · have hle : ¬ f.maRms ≤ threshold := not_le.mpr hf
      simp only [groupLoop, hf, if_true, hle, false_and, if_false, List.append_nil]
      by_cases hr : runEndingAt threshold pre pre.length = []
      · simp [hr]
      · simp [hr]
    · have hle : f.maRms ≤ threshold := not_lt.mp hf
      simp only [groupLoop, hf, if_false, hle, true_and]
      by_cases hr : runEndingAt threshold pre pre.length = []
      · simp [hr]
      · simp [hr]

/-- Every run of the spec is a non-empty block of consecutive frames of the list,
all above the threshold. -/
lemma closedRuns_mem (threshold : ℚ) (frames : List Frame) (w : List Frame)
    (hw : w ∈ closedRuns threshold frames) :
    w ≠ [] ∧ w <:+: frames ∧ ∀ f ∈ w, f.maRms > threshold := by
  unfold closedRuns at hw
  rw [List.mem_filterMap] at hw
  obtain ⟨b, _, hb⟩ := hw
  cases hfb : frames[b]? with
  | none => rw [hfb] at hb; exact Option.noConfusion hb
  | some frame =>
    rw [hfb] at hb
    simp only at hb
    split_ifs at hb with hc
    · simp only [Option.some.injEq] at hb
      subst hb
      refine ⟨hc.2, ?_, ?_⟩
      · unfold runEndingAt
        have h1 : (List.takeWhile (fun f => decide (f.maRms > threshold))
            (frames.take b).reverse).reverse <:+ frames.take b := by
          rw [← List.reverse_prefix, List.reverse_reverse]
          exact List.takeWhile_prefix _
        exact h1.isInfix.trans (List.take_prefix b frames).isInfix
      · intro f hf
        unfold runEndingAt at hf
        rw [List.mem_reverse] at hf
        have := List.mem_takeWhile_imp hf
        simpa using this

/-- Every run of the spec is immediately followed by a frame at or below the
threshold, and is not preceded by a frame above it. -/
lemma closedRuns_followed (threshold : ℚ) (frames : List Frame) (w : List Frame)
    (hw : w ∈ closedRuns threshold frames) :
    ∃ (pre : List Frame) (g : Frame) (post : List Frame),
      frames = pre ++ w ++ g :: post ∧ g.maRms ≤ threshold ∧
      ∀ q, pre.getLast? = some q → q.maRms ≤ threshold := by
  unfold closedRuns at hw
  rw [List.mem_filterMap] at hw
  obtain ⟨b, _, hb⟩ := hw
  cases hfb : frames[b]? with
  | none => rw [hfb] at hb; exact Option.noConfusion hb
  | some g =>
    rw [hfb] at hb
    simp only at hb
    split_ifs at hb with hc
    simp only [Option.some.injEq] at hb
    subst hb
    obtain ⟨hlt, hget⟩ := List.getElem?_eq_some_iff.mp hfb
    have hdrop : frames.drop b = g :: frames.drop (b + 1) := by
      rw [List.drop_eq_getElem_cons hlt, hget]
    have htake : frames.take b =
        ((frames.take b).reverse.dropWhile (fun f => decide (f.maRms > threshold))).reverse
          ++ runEndingAt threshold frames b := by
      unfold runEndingAt
      rw [← List.reverse_append, List.takeWhile_append_dropWhile, List.reverse_reverse]
    refine ⟨((frames.take b).reverse.dropWhile
      (fun f => decide (f.maRms > threshold))).reverse, g, frames.drop (b + 1), ?_, hc.1, ?_⟩
    · rw [← htake, ← hdrop, List.take_append_drop]
    · intro q hq
      rw [List.getLast?_reverse] at hq
      have := List.head?_dropWhile_not (fun f => decide (f.maRms > threshold))
        (frames.take b).reverse
      rw [hq] at this
      simp only [decide_eq_false_iff_not, not_lt] at this
      exact this

/-- C12. The grouping scan, started without a word in progress, appends to the
word list, in order, exactly the maximal runs of consecutive frames with
smoothed energy above the threshold that are immediately followed by a frame
at or below the threshold; a run that reaches the last frame is not among
them. Every such word is non-empty, is a block of consecutive frames of the
frame list, holds only frames above the threshold, is followed by a frame at
or below the threshold and is not preceded by a frame above it. -/
theorem groupLoop_eq_closedRuns (threshold : ℚ) (frames : List Frame) (words : List Word) :
    groupLoop threshold frames none words =
      words ++ (closedRuns threshold frames).map (fun r => ({ frames := r } : Word)) ∧
    ∀ w ∈ closedRuns threshold frames,
      w ≠ [] ∧ w <:+: frames ∧ (∀ f ∈ w, f.maRms > threshold) ∧
      ∃ (pre : List Frame) (g : Frame) (post : List Frame),
        frames = pre ++ w ++ g :: post ∧ g.maRms ≤ threshold ∧
        ∀ q, pre.getLast? = some q → q.maRms ≤ threshold := by
  constructor
  · have h := groupLoop_closedRuns threshold frames [] words
    have h0 : runEndingAt threshold [] ([] : List Frame).length = [] := rfl
    have h1 : closedRuns threshold [] = [] := rfl
    rw [h0, h1] at h
    simpa using h
  · intro w hw
    obtain ⟨a, b, c⟩ := closedRuns_mem threshold frames w hw
    exact ⟨a, b, c, closedRuns_followed threshold frames w hw⟩

end wtm.audio
